import Mathlib

set_option maxRecDepth 100000

/-!
# Verification of the dynamic-docx-generator string/markup core

Shallow embedding of the placeholder-substitution engine and the OOXML
table/image markup generators of `dynamic-docx-generator` (TypeScript),
together with proofs about the claims of the specification.

Strings are modelled as `List Char` (named `Str` below); JavaScript's
`String.prototype.replace` with a `g`-flagged literal pattern is modelled as
leftmost, non-overlapping replacement that does not rescan the inserted
replacement text.  The ECMAScript `GetSubstitution` processing of the
replacement string (`$$`, `$&`, `$`-backtick, `$`-quote; for the captureless
patterns this code builds, `$<digit>` and `$<name>` are literal text) is
embedded as `getSubst`; the verbatim-insertion cores `replaceAllV` and
`scanReplaceV` are proof devices to which the embeddings provably reduce
when the replacement contains no `$`.  The
`gi`-flagged regular expression used by the split-run pass is modelled by a
backtracking matcher over the exact element sequence of that pattern
(literal characters compared case-insensitively, plus greedy character-class
stars), which is the semantics of a backtracking regex engine on a pattern
with no alternation.

Recursions that consume a non-structural amount of input per step are written
with an explicit fuel argument (initialised to an amount that provably
suffices), so that every definition reduces inside the kernel; the intended
unfolding equations are proved as lemmas right after each definition.
-/

namespace Docx

abbrev Str := List Char

/-- Fuel-driven worker for `replaceAllV`; `fuel ≥ s.length` makes it total in
the intended sense (see `replaceAllV_cons`). -/
def replaceAllVF (pat repl : Str) : Nat → Str → Str
  | _, [] => []
  | 0, s => s
  | fuel + 1, c :: rest =>
    if pat ≠ [] ∧ pat.isPrefixOf (c :: rest) then
      repl ++ replaceAllVF pat repl fuel ((c :: rest).drop pat.length)
    else
      c :: replaceAllVF pat repl fuel rest

/-- Verbatim-insertion global replacement: the replacement text is inserted
as-is.  This is a proof device: `replaceAll` (the source embedding below)
coincides with it whenever the replacement contains no `$`
(`replaceAll_noDollar`). -/
def replaceAllV (pat repl s : Str) : Str := replaceAllVF pat repl s.length s

/-- ECMAScript `GetSubstitution` for a captureless pattern: expand `$$`,
`$&` (the matched text), `$`+backtick (the text before the match) and
`$`+quote (the text after the match) in the replacement template; every
other `$` — including `$<digit>`, which for a pattern with zero capture
groups is left as-is — is literal. -/
def getSubst (matched before after : Str) : Str → Str
  | [] => []
  | c :: r =>
    if c = '$' then
      match r with
      | [] => ['$']
      | d :: r2 =>
        if d = '$' then '$' :: getSubst matched before after r2
        else if d = '&' then matched ++ getSubst matched before after r2
        else if d = '\x60' then before ++ getSubst matched before after r2
        else if d = '\x27' then after ++ getSubst matched before after r2
        else '$' :: getSubst matched before after (d :: r2)
    else c :: getSubst matched before after r

/-- Fuel-driven worker for `replaceAll`: like `replaceAllVF` but the
replacement template undergoes `getSubst` at each match, with the consumed
prefix threaded through `bef` (the matched text of the literal pattern is
the pattern itself). -/
def replaceAllF (pat repl : Str) : Nat → Str → Str → Str
  | _, _, [] => []
  | 0, _, s => s
  | fuel + 1, bef, c :: rest =>
    if pat ≠ [] ∧ pat.isPrefixOf (c :: rest) then
      getSubst pat bef ((c :: rest).drop pat.length) repl
        ++ replaceAllF pat repl fuel (bef ++ pat) ((c :: rest).drop pat.length)
    else
      c :: replaceAllF pat repl fuel (bef ++ [c]) rest

/-- Embedding of `replaceAll` from `src/utils/string.ts` restricted to string
input: `str.replace(new RegExp(escapeRegExp(search), 'g'), replacement)`,
i.e. leftmost non-overlapping global replacement of a literal pattern, the
replacement string undergoing ECMAScript `GetSubstitution`.
(The `typeof str !== 'string'` guard lives in `replaceAllJs` below.) -/
def replaceAll (pat repl s : Str) : Str := replaceAllF pat repl s.length [] s

/-- The escaping chain of `escapeForXml` (the five successive `.replace`
calls, `&` first). -/
def escapeChain (s : Str) : Str :=
  replaceAll ['\''] "&apos;".toList
    (replaceAll ['"'] "&quot;".toList
      (replaceAll ['>'] "&gt;".toList
        (replaceAll ['<'] "&lt;".toList
          (replaceAll ['&'] "&amp;".toList s))))

/-- Embedding of `escapeForXml` (string input): `if (!text || typeof text
!== 'string') return ''` followed by the five-entity escaping chain.  For a
string argument the guard only fires on the empty string. -/
def escapeForXml (s : Str) : Str :=
  if s = [] then [] else escapeChain s

/-- Embedding of `unescapeXml` (string input): guard, then the five
successive entity-to-character replacements, `&amp;` first. -/
def unescapeXml (s : Str) : Str :=
  if s = [] then []
  else
    replaceAll "&apos;".toList ['\'']
      (replaceAll "&quot;".toList ['"']
        (replaceAll "&gt;".toList ['>']
          (replaceAll "&lt;".toList ['<']
            (replaceAll "&amp;".toList ['&'] s))))

/-- Embedding of `fixDoubleEscaping` (string input): the five double-escaped
sequences collapsed to their single-escaped forms, one global pass each. -/
def fixDoubleEscaping (s : Str) : Str :=
  replaceAll "&amp;apos;".toList "&apos;".toList
    (replaceAll "&amp;quot;".toList "&quot;".toList
      (replaceAll "&amp;gt;".toList "&gt;".toList
        (replaceAll "&amp;lt;".toList "&lt;".toList
          (replaceAll "&amp;amp;".toList "&amp;".toList s))))

/-! ## JavaScript dynamic-typing wrappers

The codec functions accept arbitrary JavaScript values at runtime.  We model
a JavaScript value as either a string, `null`/`undefined`, or some other
non-string value.  `escapeForXml`/`unescapeXml` begin with
`if (!text || typeof text !== 'string') return ''`, so every non-string input
yields the empty string there; `replaceAll` begins with
`if (typeof str !== 'string') return str`, so `fixDoubleEscaping` (a chain of
five `replaceAll` calls with no guard of its own) returns a non-string input
unchanged. -/

/-- A JavaScript value as far as the codec's type tests observe it. -/
inductive JsVal where
  | vstr (s : Str)
  | vnull
  | vother
deriving DecidableEq

/-- `typeof v === 'string'`. -/
def JsVal.isStr : JsVal → Bool
  | .vstr _ => true
  | _ => false

/-- `escapeForXml` on an arbitrary value. -/
def escapeForXmlJs : JsVal → JsVal
  | .vstr s => .vstr (escapeForXml s)
  | _ => .vstr []

/-- `unescapeXml` on an arbitrary value. -/
def unescapeXmlJs : JsVal → JsVal
  | .vstr s => .vstr (unescapeXml s)
  | _ => .vstr []

/-- `replaceAll` on an arbitrary value (`typeof` guard included). -/
def replaceAllJs (pat repl : Str) : JsVal → JsVal
  | .vstr s => .vstr (replaceAll pat repl s)
  | v => v

/-- `fixDoubleEscaping` on an arbitrary value: five unguarded `replaceAll`
calls. -/
def fixDoubleEscapingJs (v : JsVal) : JsVal :=
  replaceAllJs "&amp;apos;".toList "&apos;".toList
    (replaceAllJs "&amp;quot;".toList "&quot;".toList
      (replaceAllJs "&amp;gt;".toList "&gt;".toList
        (replaceAllJs "&amp;lt;".toList "&lt;".toList
          (replaceAllJs "&amp;amp;".toList "&amp;".toList v))))

/-! ## The split-run regular expression

`replacePlaceholder`'s third pass builds
`new RegExp('<w:t[^>]*>\\s*' + placeholderPattern + '\\s*</w:t>', 'gi')`
where the placeholder pattern joins the placeholder's characters with
`[^a-zA-Z]*` fillers.
We embed this particular pattern shape: a sequence of case-insensitive
literal characters and greedy character-class stars, matched by a
backtracking engine (greedy star, backtrack one character at a time),
scanning left to right for `g`-replacement. -/

/-- One element of the pattern: a literal character (compared
case-insensitively, `i` flag) or a greedy star over a character class. -/
inductive RElem where
  | lit (c : Char)
  | star (p : Char → Bool)

/-- ASCII lower-casing on code points, the effect of the `i` flag on the
ASCII characters this pattern can contain. -/
def lowerN (c : Char) : Nat :=
  if 65 ≤ c.toNat ∧ c.toNat ≤ 90 then c.toNat + 32 else c.toNat

/-- Case-insensitive character comparison. -/
def ciEq (c x : Char) : Bool := lowerN c == lowerN x

/-- `[^>]`. -/
def nonGt (c : Char) : Bool := !(c == '>')

/-- `\s` restricted to ASCII whitespace. -/
def wsChar (c : Char) : Bool :=
  c == ' ' || c == '\t' || c == '\n' || c == '\r' || c == '\x0b' || c == '\x0c'

/-- `a`–`z` or `A`–`Z`. -/
def isAsciiAlpha (c : Char) : Bool :=
  decide ((97 ≤ c.toNat ∧ c.toNat ≤ 122) ∨ (65 ≤ c.toNat ∧ c.toNat ≤ 90))

/-- `[^a-zA-Z]`. -/
def nonAlpha (c : Char) : Bool := !isAsciiAlpha c

/-- Backtracking search for a greedy star: try the longest candidate
`j` first, then shorter ones.  `f` matches the rest of the pattern. -/
def starLoop (f : Str → Option Nat) (s : Str) : Nat → Option Nat
  | 0 => f s
  | j + 1 =>
    match f (s.drop (j + 1)) with
    | some m => some (j + 1 + m)
    | none => starLoop f s j

/-- Backtracking match of a pattern against a prefix of `s`; returns the
number of characters consumed by the (greedy, leftmost-in-search-order)
match, as a backtracking regex engine does at a fixed start position. -/
def tryMatch : List RElem → Str → Option Nat
  | [], _ => some 0
  | .lit _ :: _, [] => none
  | .lit c :: ps, x :: xs => if ciEq c x then (tryMatch ps xs).map (· + 1) else none
  | .star p :: ps, s => starLoop (tryMatch ps) s (s.takeWhile p).length

/-- Fuel-driven worker for `scanReplaceV`. -/
def scanReplaceVF (pat : List RElem) (repl : Str) : Nat → Str → Str
  | _, [] => []
  | 0, s => s
  | fuel + 1, c :: rest =>
    match tryMatch pat (c :: rest) with
    | none => c :: scanReplaceVF pat repl fuel rest
    | some n =>
      if n = 0 then repl ++ c :: scanReplaceVF pat repl fuel rest
      else repl ++ scanReplaceVF pat repl fuel ((c :: rest).drop n)

/-- Verbatim-insertion regex replacement, the proof-device counterpart of
`scanReplace` (they coincide for `$`-free replacements,
`scanReplace_noDollar`). -/
def scanReplaceV (pat : List RElem) (repl s : Str) : Str :=
  scanReplaceVF pat repl s.length s

/-- Fuel-driven worker for `scanReplace`: like `scanReplaceVF` but the
replacement template undergoes `getSubst` at each match (`(c :: rest).take n`
being the matched text), with the consumed prefix threaded through `bef`. -/
def scanReplaceF (pat : List RElem) (repl : Str) : Nat → Str → Str → Str
  | _, _, [] => []
  | 0, _, s => s
  | fuel + 1, bef, c :: rest =>
    match tryMatch pat (c :: rest) with
    | none => c :: scanReplaceF pat repl fuel (bef ++ [c]) rest
    | some n =>
      if n = 0 then
        getSubst [] bef (c :: rest) repl ++ c :: scanReplaceF pat repl fuel (bef ++ [c]) rest
      else
        getSubst ((c :: rest).take n) bef ((c :: rest).drop n) repl
          ++ scanReplaceF pat repl fuel (bef ++ (c :: rest).take n) ((c :: rest).drop n)

/-- `String.prototype.replace` with a `g`-flagged regex: find the leftmost
match, replace it (the replacement string undergoing ECMAScript
`GetSubstitution`), continue searching after the matched text (advancing one
character on an empty match, as the JavaScript engine does). -/
def scanReplace (pat : List RElem) (repl s : Str) : Str :=
  scanReplaceF pat repl s.length [] s

/-- `placeholder.split('').flatten('[^a-zA-Z]*')` as a pattern-element list. -/
def tokenPat : Str → List RElem
  | [] => []
  | [c] => [.lit c]
  | c :: rest => .lit c :: .star nonAlpha :: tokenPat rest

/-- The full split-run pattern `<w:t[^>]*>\s* … \s*</w:t>`. -/
def splitRunPat (placeholder : Str) : List RElem :=
  [.lit '<', .lit 'w', .lit ':', .lit 't', .star nonGt, .lit '>', .star wsChar]
    ++ tokenPat placeholder
    ++ [.star wsChar, .lit '<', .lit '/', .lit 'w', .lit ':', .lit 't', .lit '>']

/-- The six closing literal elements `</w:t>` of the split-run pattern. -/
def closeTag : List RElem :=
  [.lit '<', .lit '/', .lit 'w', .lit ':', .lit 't', .lit '>']

/-- Relation between a run text and a placeholder name: same length, both
sides ASCII letters, equal up to letter case. -/
abbrev caseVariant (a b : Char) : Prop :=
  isAsciiAlpha a = true ∧ isAsciiAlpha b = true ∧ lowerN a = lowerN b

/-- Embedding of `replacePlaceholder` from `src/utils/string.ts`: escape the
value, then three passes — bracketed `{{placeholder}}`, exact
`<w:t>placeholder</w:t>`, and the split-run regular expression. -/
def replacePlaceholder (content placeholder value : Str) : Str :=
  let safeValue := escapeForXml value
  let r1 := replaceAll ("\x7b\x7b".toList ++ placeholder ++ "\x7d\x7d".toList)
      safeValue content
  let r2 := replaceAll ("<w:t>".toList ++ placeholder ++ "</w:t>".toList)
      ("<w:t>".toList ++ safeValue ++ "</w:t>".toList) r1
  scanReplace (splitRunPat placeholder)
    ("<w:t>".toList ++ safeValue ++ "</w:t>".toList) r2

/-! ## Decimal rendering of numbers

JavaScript template literals render integers in decimal; we embed that
rendering directly (fuel-driven so it reduces in the kernel). -/

/-- The decimal digit characters. -/
def dchar : Nat → Char
  | 0 => '0' | 1 => '1' | 2 => '2' | 3 => '3' | 4 => '4'
  | 5 => '5' | 6 => '6' | 7 => '7' | 8 => '8' | 9 => '9'
  | _ => '*'

/-- Fuel-driven decimal rendering worker. -/
def natStrF : Nat → Nat → Str
  | 0, n => [dchar n]
  | fuel + 1, n =>
    if n < 10 then [dchar n] else natStrF fuel (n / 10) ++ [dchar (n % 10)]

/-- Decimal rendering of a natural number. -/
def natStr (n : Nat) : Str := natStrF n n

/-- Decimal rendering of an integer (JavaScript `${i}` for an integral
number). -/
def intStr (i : Int) : Str :=
  if i < 0 then '-' :: natStr i.natAbs else natStr i.toNat

/-! ## Table markup generator (`src/utils/constants.ts`)

`generateTable` receives, through `DocxGenerator.processTables`, the object
`{...DEFAULT_TABLE_STYLE, ...table.style}`: the five `DEFAULT_TABLE_STYLE`
fields always present (possibly overridden) plus whichever of the five
additional `TableStyle` fields (`headerHeight`, `rowHeight`, `tableAlign`,
`cellPadding`, `borderSize`) the caller set.  We model that merged object as
`MergedStyle` so that theorems can quantify over the extra fields the
generator receives at runtime. -/

/-- A caller's (all-optional) `TableStyle` from `src/types/index.ts`. -/
structure TableStyleOpts where
  headerBgColor : Option Str := none
  headerTextColor : Option Str := none
  borderColor : Option Str := none
  fontSize : Option Int := none
  fontFamily : Option Str := none
  headerHeight : Option Int := none
  rowHeight : Option Int := none
  tableAlign : Option Str := none
  cellPadding : Option Int := none
  borderSize : Option Int := none

/-- The style object `generateTable` actually receives. -/
structure MergedStyle where
  headerBgColor : Str
  headerTextColor : Str
  borderColor : Str
  fontSize : Int
  fontFamily : Str
  headerHeight : Option Int := none
  rowHeight : Option Int := none
  tableAlign : Option Str := none
  cellPadding : Option Int := none
  borderSize : Option Int := none

/-- `DEFAULT_TABLE_STYLE` from `src/utils/constants.ts`. -/
def DEFAULT_TABLE_STYLE : MergedStyle where
  headerBgColor := "C9DAF8".toList
  headerTextColor := "000000".toList
  borderColor := "auto".toList
  fontSize := 24
  fontFamily := "Times New Roman".toList

/-- `{...DEFAULT_TABLE_STYLE, ...table.style}` from
`DocxGenerator.processTables`. -/
def mergeStyle (o : TableStyleOpts) : MergedStyle where
  headerBgColor := o.headerBgColor.getD DEFAULT_TABLE_STYLE.headerBgColor
  headerTextColor := o.headerTextColor.getD DEFAULT_TABLE_STYLE.headerTextColor
  borderColor := o.borderColor.getD DEFAULT_TABLE_STYLE.borderColor
  fontSize := o.fontSize.getD DEFAULT_TABLE_STYLE.fontSize
  fontFamily := o.fontFamily.getD DEFAULT_TABLE_STYLE.fontFamily
  headerHeight := o.headerHeight
  rowHeight := o.rowHeight
  tableAlign := o.tableAlign
  cellPadding := o.cellPadding
  borderSize := o.borderSize

/-- A `{ name, width? }` column header as passed to `generateTable`. -/
structure Hdr where
  name : Str
  width : Option Int := none

/-- `header.width || 2000` (note that `0` is falsy in JavaScript). -/
def widthOr (w : Option Int) : Int :=
  match w with
  | some v => if v = 0 then 2000 else v
  | none => 2000

/-- `widths[index] || 2000` (out-of-range indexing yields `undefined`,
hence the fallback; `0` is falsy). -/
def widthAt (widths : List Int) (i : Nat) : Int :=
  match widths[i]? with
  | some v => if v = 0 then 2000 else v
  | none => 2000

/-- Embedding of `escapeXml` from `src/utils/constants.ts`: `if (!text)
return ''` then the same five-entity chain as `escapeForXml`. -/
def escapeXml (s : Str) : Str :=
  if s = [] then [] else escapeChain s

/-- One header cell of `generateTableHeaderRow`. -/
def headerCellXml (style : MergedStyle) (h : Hdr) : Str :=
  "\n    <w:tc>\n      <w:tcPr>\n        <w:tcW w:w=\"".toList
    ++ intStr (widthOr h.width)
    ++ "\" w:type=\"dxa\" />\n        <w:shd w:val=\"clear\" w:color=\"auto\" w:fill=\"".toList
    ++ style.headerBgColor
    ++ "\" />\n        <w:vAlign w:val=\"center\" />\n      </w:tcPr>\n      <w:p>\n        <w:pPr>\n          <w:jc w:val=\"center\" />\n          <w:rPr>\n            <w:rFonts w:ascii=\"".toList
    ++ style.fontFamily
    ++ "\" w:hAnsi=\"".toList
    ++ style.fontFamily
    ++ "\" />\n            <w:b />\n            <w:sz w:val=\"".toList
    ++ intStr style.fontSize
    ++ "\" />\n            <w:szCs w:val=\"".toList
    ++ intStr style.fontSize
    ++ "\" />\n            <w:color w:val=\"".toList
    ++ style.headerTextColor
    ++ "\" />\n          </w:rPr>\n        </w:pPr>\n        <w:r>\n          <w:rPr>\n            <w:rFonts w:ascii=\"".toList
    ++ style.fontFamily
    ++ "\" w:hAnsi=\"".toList
    ++ style.fontFamily
    ++ "\" />\n            <w:b />\n            <w:sz w:val=\"".toList
    ++ intStr style.fontSize
    ++ "\" />\n            <w:szCs w:val=\"".toList
    ++ intStr style.fontSize
    ++ "\" />\n            <w:color w:val=\"".toList
    ++ style.headerTextColor
    ++ "\" />\n          </w:rPr>\n          <w:t>".toList
    ++ escapeXml h.name
    ++ "</w:t>\n        </w:r>\n      </w:p>\n    </w:tc>\n  ".toList

/-- Embedding of `generateTableHeaderRow`: the header-row height is the
literal `400` in the source template. -/
def generateTableHeaderRow (headers : List Hdr) (style : MergedStyle) : Str :=
  "\n    <w:tr>\n      <w:trPr>\n        <w:trHeight w:val=\"400\" />\n      </w:trPr>\n      ".toList
    ++ (headers.map (headerCellXml style)).flatten
    ++ "\n    </w:tr>\n  ".toList

/-- The literal segments of the data-cell template, split at its
interpolation points (`${widths[index] || 2000}`, `${style.fontFamily}`,
`${style.fontSize}`, `${escapeXml(cell)}`). -/
def dcl1 : Str := "\n    <w:tc>\n      <w:tcPr>\n        <w:tcW w:w=\"".toList

/-- Segment between the width and the first font-family interpolation. -/
def dcl2 : Str :=
  "\" w:type=\"dxa\" />\n        <w:vAlign w:val=\"center\" />\n      </w:tcPr>\n      <w:p>\n        <w:pPr>\n          <w:rPr>\n            <w:rFonts w:ascii=\"".toList

/-- Segment between the two font-family attributes. -/
def dcl3 : Str := "\" w:hAnsi=\"".toList

/-- Segment before the `w:sz` value. -/
def dcl4 : Str := "\" />\n            <w:sz w:val=\"".toList

/-- Segment before the `w:szCs` value. -/
def dcl5 : Str := "\" />\n            <w:szCs w:val=\"".toList

/-- Segment between the paragraph and run properties. -/
def dcl6 : Str :=
  "\" />\n          </w:rPr>\n        </w:pPr>\n        <w:r>\n          <w:rPr>\n            <w:rFonts w:ascii=\"".toList

/-- Segment before the escaped cell text. -/
def dcl10 : Str := "\" />\n          </w:rPr>\n          <w:t>".toList

/-- Closing segment of the data-cell template. -/
def dcl11 : Str := "</w:t>\n        </w:r>\n      </w:p>\n    </w:tc>\n  ".toList

/-- One data cell of `generateTableDataRow` (width resolved from the cell's
index). -/
def dataCellXml (style : MergedStyle) (w : Int) (cell : Str) : Str :=
  dcl1 ++ intStr w ++ dcl2 ++ style.fontFamily ++ dcl3 ++ style.fontFamily
    ++ dcl4 ++ intStr style.fontSize ++ dcl5 ++ intStr style.fontSize
    ++ dcl6 ++ style.fontFamily ++ dcl3 ++ style.fontFamily
    ++ dcl4 ++ intStr style.fontSize ++ dcl5 ++ intStr style.fontSize
    ++ dcl10 ++ escapeXml cell ++ dcl11

/-- `cells.map((cell, index) => …).flatten('')`: one cell per entry of the data
row, with the width looked up by index. -/
def dataCells (style : MergedStyle) (widths : List Int) : List Str → Nat → Str
  | [], _ => []
  | c :: cs, i => dataCellXml style (widthAt widths i) c ++ dataCells style widths cs (i + 1)

/-- The opening of the data-row template (row height is the literal `350`
in the source). -/
def drOpen : Str :=
  "\n    <w:tr>\n      <w:trPr>\n        <w:trHeight w:val=\"350\" />\n      </w:trPr>\n      ".toList

/-- The closing of the data-row template. -/
def drClose : Str := "\n    </w:tr>\n  ".toList

/-- Embedding of `generateTableDataRow`: the data-row height is the literal
`350` in the source template. -/
def generateTableDataRow (cells : List Str) (widths : List Int) (style : MergedStyle) : Str :=
  drOpen ++ dataCells style widths cells 0 ++ drClose

/-- Embedding of `generateTable`: grid columns, header row, one data row per
row entry, wrapped in a `w:tbl` whose alignment is the literal `center` and
whose six borders carry the literal size `4` and the style's border color. -/
def generateTable (headers : List Hdr) (rows : List (List Str)) (style : MergedStyle) : Str :=
  let widths := headers.map fun h => widthOr h.width
  let gridCols := (headers.map fun h =>
    "<w:gridCol w:w=\"".toList ++ intStr (widthOr h.width) ++ "\" />".toList).flatten
  let headerRow := generateTableHeaderRow headers style
  let dataRows := (rows.map fun row => generateTableDataRow row widths style).flatten
  "\n    <w:tbl>\n      <w:tblPr>\n        <w:tblStyle w:val=\"TableGrid\" />\n        <w:tblW w:w=\"5000\" w:type=\"pct\" />\n        <w:jc w:val=\"center\" />\n        <w:tblBorders>\n          <w:top w:val=\"single\" w:sz=\"4\" w:space=\"0\" w:color=\"".toList
    ++ style.borderColor
    ++ "\" />\n          <w:left w:val=\"single\" w:sz=\"4\" w:space=\"0\" w:color=\"".toList
    ++ style.borderColor
    ++ "\" />\n          <w:bottom w:val=\"single\" w:sz=\"4\" w:space=\"0\" w:color=\"".toList
    ++ style.borderColor
    ++ "\" />\n          <w:right w:val=\"single\" w:sz=\"4\" w:space=\"0\" w:color=\"".toList
    ++ style.borderColor
    ++ "\" />\n          <w:insideH w:val=\"single\" w:sz=\"4\" w:space=\"0\" w:color=\"".toList
    ++ style.borderColor
    ++ "\" />\n          <w:insideV w:val=\"single\" w:sz=\"4\" w:space=\"0\" w:color=\"".toList
    ++ style.borderColor
    ++ "\" />\n        </w:tblBorders>\n        <w:tblLayout w:type=\"fixed\" />\n      </w:tblPr>\n      <w:tblGrid>\n        ".toList
    ++ gridCols
    ++ "\n      </w:tblGrid>\n      ".toList
    ++ headerRow
    ++ "\n      ".toList
    ++ dataRows
    ++ "\n    </w:tbl>\n  ".toList

/-! ## Image id assignment (`src/utils/image.ts` / `DocxGenerator`) -/

/-- The fallback candidate of `prepareImage`'s collision loop:
`` `rId${100 + index + counter}` ``. -/
def candidateId (index k : Nat) : Str := "rId".toList ++ natStr (100 + index + k)

/-- The `while (existingIds.includes(id))` loop of `prepareImage`, trying
fallback candidates with increasing counter; fuel-driven (the pigeonhole
argument in the proofs shows `existing.length + 1` attempts always reach a
free candidate, so the fuel never runs out). -/
def idLoop (existing : List Str) (index : Nat) : Nat → Nat → Str
  | k, 0 => candidateId index k
  | k, fuel + 1 =>
    if candidateId index k ∈ existing then idLoop existing index (k + 1) fuel
    else candidateId index k

/-- Unique-id assignment of `prepareImage`: the initial id (explicit or
random) if free, otherwise the first free fallback candidate. -/
def assignId (init : Str) (index : Nat) (existing : List Str) : Str :=
  if init ∈ existing then idLoop existing index 1 (existing.length + 1) else init

/-- `config.id || generateImageId()`: an empty or absent explicit id falls
back to the random id `rand`. -/
def chosenInit (cfgId : Option Str) (rand : Str) : Str :=
  match cfgId with
  | some i => if i = [] then rand else i
  | none => rand

/-- The relationship id `prepareImage` assigns to image `index`, given the
ids already taken.  The random id that `generateImageId()` would produce is
passed in as `rand`, so the theorems quantify over the randomness. -/
def prepareImageId (cfgId : Option Str) (rand : Str) (index : Nat) (existing : List Str) : Str :=
  assignId (chosenInit cfgId rand) index existing

/-- The id-assignment part of `DocxGenerator.processImages`: images are
prepared left to right, each one checked against the archive's existing ids
plus all ids generated earlier in the pass
(`[...existingIds, ...preparedImages.map(p => p.id)]`). -/
def processImagesIds : List (Option Str) → (Nat → Str) → List Str → Nat → List Str → List Str
  | [], _, _, _, acc => acc
  | cfg :: rest, rands, existing, i, acc =>
    let id := prepareImageId cfg (rands i) i (existing ++ acc)
    processImagesIds rest rands existing (i + 1) (acc ++ [id])

/-! ## Image source resolution (`getImageBuffer`) -/

/-- Which source `getImageBuffer` resolves the bytes from. -/
inductive ImageSource where
  | fromBuffer (b : List Nat)
  | fromPath (p : Str)
  | fromUrl (u : Str)
deriving DecidableEq

/-- An `ImageConfig` from `src/types/index.ts` (the fields `getImageBuffer`
and the id assignment observe). -/
structure ImageConfig where
  placeholder : Str
  path : Option Str := none
  buffer : Option (List Nat) := none
  url : Option Str := none
  width : Option Int := none
  height : Option Int := none
  id : Option Str := none

/-- The `config.url` branch of `getImageBuffer` (an empty string is falsy in
JavaScript, so it falls through to the throw). -/
def getImageBufferUrl (c : ImageConfig) : Except Str ImageSource :=
  match c.url with
  | some u =>
    if u = [] then
      .error ("No image source provided for placeholder: ".toList ++ c.placeholder)
    else .ok (.fromUrl u)
  | none => .error ("No image source provided for placeholder: ".toList ++ c.placeholder)

/-- Embedding of `getImageBuffer`: `if (config.buffer) … if (config.path) …
if (config.url) … throw`.  Resolving a path or url delegates to the I/O
collaborators, modelled by returning which source won. -/
def getImageBuffer (c : ImageConfig) : Except Str ImageSource :=
  match c.buffer with
  | some b => .ok (.fromBuffer b)
  | none =>
    match c.path with
    | some p => if p = [] then getImageBufferUrl c else .ok (.fromPath p)
    | none => getImageBufferUrl c

/-! ## Content-type registry (`src/utils/xml.ts`) -/

/-- Computable substring test, the model of JavaScript's
`String.prototype.includes`. -/
def isSubstr (pat : Str) : Str → Bool
  | [] => pat.isEmpty
  | c :: rest => pat.isPrefixOf (c :: rest) || isSubstr pat rest

/-- Embedding of `addContentType`: skip if a declaration with this extension
already exists (`contentTypesXml.includes` is a substring test), otherwise
insert a `Default` declaration before the closing `</Types>` tag. -/
def addContentType (contentTypesXml ext contentType : Str) : Str :=
  let existing := "Extension=\"".toList ++ ext ++ "\"".toList
  if isSubstr existing contentTypesXml then contentTypesXml
  else
    let newType := "<Default Extension=\"".toList ++ ext ++ "\" ContentType=\"".toList
      ++ contentType ++ "\" />".toList
    replaceAll "</Types>".toList (newType ++ '\n' :: "</Types>".toList) contentTypesXml

/-- Number of positions of `s` at which `pat` occurs (a substring-occurrence
counter; for the nonempty patterns used here this is the number of
occurrences, overlapping ones included). -/
def countOcc (pat : Str) : Str → Nat
  | [] => 0
  | c :: rest => (if pat.isPrefixOf (c :: rest) then 1 else 0) + countOcc pat rest

/-- JavaScript truthiness of an optional string (`undefined` and `''` are
falsy). -/
def strTruthy : Option Str → Bool
  | none => false
  | some s => !s.isEmpty

/-- The numeric value a decimal digit character stands for. -/
def dval (c : Char) : Nat := c.toNat - 48

/-- Decimal value of a digit string (used to invert `natStr`). -/
def valOf (s : Str) : Nat := s.foldl (fun acc c => 10 * acc + dval c) 0

/-! ## Block decomposition of the escaping chain

`escapeForXml` escapes character by character; the per-character block maps
below describe the string after escaping (`escChar`) and after each
successive decoding pass of `unescapeXml` (`escChar1` … `escChar4`). -/

/-- The block a single character contributes to `escapeForXml`'s output. -/
def escChar (c : Char) : Str :=
  if c = '&' then "&amp;".toList
  else if c = '<' then "&lt;".toList
  else if c = '>' then "&gt;".toList
  else if c = '"' then "&quot;".toList
  else if c = '\'' then "&apos;".toList
  else [c]

/-- Blocks after `unescapeXml`'s `&amp;` pass. -/
def escChar1 (c : Char) : Str := if c = '&' then ['&'] else escChar c

/-- Blocks after the `&lt;` pass. -/
def escChar2 (c : Char) : Str := if c = '<' then ['<'] else escChar1 c

/-- Blocks after the `&gt;` pass. -/
def escChar3 (c : Char) : Str := if c = '>' then ['>'] else escChar2 c

/-- Blocks after the `&quot;` pass. -/
def escChar4 (c : Char) : Str := if c = '"' then ['"'] else escChar3 c

/-! ## Foundational lemmas on `replaceAll` -/

/-- A `$`-free replacement template substitutes to itself. -/
theorem getSubst_id (m b a : Str) : ∀ r : Str, '$' ∉ r → getSubst m b a r = r := by
  intro r
  induction r with
  | nil => intro _; rfl
  | cons c r2 ih =>
    intro h
    have hc : ¬ c = '$' := fun hc => h (hc ▸ List.mem_cons_self c r2)
    rw [getSubst.eq_def]
    simp only [if_neg hc]
    rw [ih (fun hm => h (List.mem_cons_of_mem c hm))]

/-- With a `$`-free replacement the substituting worker is the verbatim
worker, whatever prefix has been consumed. -/
theorem replaceAllF_noDollar (pat repl : Str) (h : '$' ∉ repl) :
    ∀ (fuel : Nat) (bef s : Str),
      replaceAllF pat repl fuel bef s = replaceAllVF pat repl fuel s := by
  intro fuel
  induction fuel with
  | zero => intro bef s; cases s <;> rfl
  | succ k ih =>
    intro bef s
    cases s with
    | nil => rfl
    | cons c rest =>
      simp only [replaceAllF, replaceAllVF]
      by_cases hp : pat ≠ [] ∧ pat.isPrefixOf (c :: rest)
      · rw [if_pos hp, if_pos hp, getSubst_id _ _ _ _ h, ih]
      · rw [if_neg hp, if_neg hp, ih]

/-- `replaceAll` inserts `$`-free replacements verbatim. -/
theorem replaceAll_noDollar (pat repl s : Str) (h : '$' ∉ repl) :
    replaceAll pat repl s = replaceAllV pat repl s :=
  replaceAllF_noDollar pat repl h s.length [] s

/-- With a `$`-free replacement the substituting regex worker is the verbatim
one. -/
theorem scanReplaceF_noDollar (pat : List RElem) (repl : Str) (h : '$' ∉ repl) :
    ∀ (fuel : Nat) (bef s : Str),
      scanReplaceF pat repl fuel bef s = scanReplaceVF pat repl fuel s := by
  intro fuel
  induction fuel with
  | zero => intro bef s; cases s <;> rfl
  | succ k ih =>
    intro bef s
    cases s with
    | nil => rfl
    | cons c rest =>
      simp only [scanReplaceF, scanReplaceVF]
      rcases ht : tryMatch pat (c :: rest) with _ | n
      · rw [ih]
      · by_cases h0 : n = 0
        · simp only [h0, if_true]
          rw [getSubst_id _ _ _ _ h, ih]
        · simp only [if_neg h0]
          rw [getSubst_id _ _ _ _ h, ih]

/-- `scanReplace` inserts `$`-free replacements verbatim. -/
theorem scanReplace_noDollar (pat : List RElem) (repl s : Str) (h : '$' ∉ repl) :
    scanReplace pat repl s = scanReplaceV pat repl s :=
  scanReplaceF_noDollar pat repl h s.length [] s


theorem replaceAllVF_congr (pat repl : Str) :
    ∀ f1 f2 s, List.length s ≤ f1 → List.length s ≤ f2 →
      replaceAllVF pat repl f1 s = replaceAllVF pat repl f2 s := by
  intro f1
  induction f1 with
  | zero =>
    intro f2 s h1 _
    have hs : s = [] := List.eq_nil_of_length_eq_zero (Nat.le_zero.mp h1)
    subst hs
    cases f2 <;> rfl
  | succ n ih =>
    intro f2 s h1 h2
    cases s with
    | nil => cases f2 <;> rfl
    | cons c rest =>
      cases f2 with
      | zero => simp at h2
      | succ m =>
        simp only [replaceAllVF]
        by_cases hc : pat ≠ [] ∧ pat.isPrefixOf (c :: rest)
        · rw [if_pos hc, if_pos hc]
          have hp : 1 ≤ pat.length := by
            cases pat with
            | nil => exact absurd rfl hc.1
            | cons _ _ => simp
          congr 1
          apply ih
          · simp only [List.length_drop, List.length_cons]
            simp only [List.length_cons] at h1
            omega
          · simp only [List.length_drop, List.length_cons]
            simp only [List.length_cons] at h2
            omega
        · rw [if_neg hc, if_neg hc]
          congr 1
          apply ih
          · simp only [List.length_cons] at h1; omega
          · simp only [List.length_cons] at h2; omega

theorem replaceAllV_nil (pat repl : Str) : replaceAllV pat repl [] = [] := rfl

theorem replaceAllV_cons (pat repl : Str) (c : Char) (rest : Str) :
    replaceAllV pat repl (c :: rest) =
      if pat ≠ [] ∧ pat.isPrefixOf (c :: rest) then
        repl ++ replaceAllV pat repl ((c :: rest).drop pat.length)
      else
        c :: replaceAllV pat repl rest := by
  show replaceAllVF pat repl (c :: rest).length (c :: rest) = _
  simp only [List.length_cons, replaceAllVF]
  by_cases hc : pat ≠ [] ∧ pat.isPrefixOf (c :: rest)
  · rw [if_pos hc, if_pos hc]
    have hp : 1 ≤ pat.length := by
      cases pat with
      | nil => exact absurd rfl hc.1
      | cons _ _ => simp
    congr 1
    apply replaceAllVF_congr
    · simp only [List.length_drop, List.length_cons]; omega
    · rfl
  · rw [if_neg hc, if_neg hc]
    rfl

/-- A head character different from the pattern's head is copied through. -/
theorem replaceAllV_cons_ne (p : Char) (pt repl : Str) (c : Char) (rest : Str)
    (h : c ≠ p) :
    replaceAllV (p :: pt) repl (c :: rest) = c :: replaceAllV (p :: pt) repl rest := by
  rw [replaceAllV_cons]
  have : ((p :: pt).isPrefixOf (c :: rest) : Bool) = false := by
    simp [List.isPrefixOf, Ne.symm h]
  simp [this]

/-- If the pattern's head character never occurs, the replacement is the
identity. -/
theorem replaceAllV_id_of_head_notMem (p : Char) (pt repl : Str) :
    ∀ s : Str, p ∉ s → replaceAllV (p :: pt) repl s = s := by
  intro s
  induction s with
  | nil => intro _; rfl
  | cons c rest ih =>
    intro h
    rw [replaceAllV_cons_ne p pt repl c rest (by intro hc; exact h (hc ▸ List.mem_cons_self c rest))]
    rw [ih (fun hm => h (List.mem_cons_of_mem c hm))]

/-- Characters without the pattern's head are copied through unchanged. -/
theorem replaceAllV_append_clean (p : Char) (pt repl : Str) (a b : Str) (h : p ∉ a) :
    replaceAllV (p :: pt) repl (a ++ b) = a ++ replaceAllV (p :: pt) repl b := by
  induction a with
  | nil => rfl
  | cons c a' ih =>
    have hc : c ≠ p := fun hc => h (hc ▸ List.mem_cons_self c a')
    rw [List.cons_append, replaceAllV_cons_ne p pt repl c (a' ++ b) hc,
      ih (fun hm => h (List.mem_cons_of_mem c hm)), List.cons_append]

/-- A match at the head is replaced and scanning continues after it. -/
theorem replaceAllV_at_head (pat repl s : Str) (h : pat ≠ []) :
    replaceAllV pat repl (pat ++ s) = repl ++ replaceAllV pat repl s := by
  cases pat with
  | nil => exact absurd rfl h
  | cons q qt =>
    rw [List.cons_append, replaceAllV_cons]
    have hpre : ((q :: qt).isPrefixOf (q :: qt ++ s) : Bool) = true := by
      rw [List.isPrefixOf_iff_prefix]
      exact List.prefix_append _ _
    have hcond : (q :: qt ≠ [] ∧ (q :: qt).isPrefixOf (q :: (qt ++ s))) := by
      refine ⟨by simp, ?_⟩
      simp only [List.cons_append] at hpre
      exact hpre
    rw [if_pos hcond]
    congr 1
    have : (q :: (qt ++ s)).drop (q :: qt).length = s := by
      have := List.drop_left (q :: qt) s
      simp only [List.cons_append] at this
      exact this
    rw [this]

/-- No occurrence of the pattern means `replaceAllV` is the identity. -/
theorem replaceAllV_id_of_no_occ (pat repl : Str) :
    ∀ s : Str, ¬ pat <:+: s → replaceAllV pat repl s = s := by
  intro s
  induction s with
  | nil => intro _; rfl
  | cons c rest ih =>
    intro h
    rw [replaceAllV_cons]
    have hnp : ¬ ((pat ≠ []) ∧ (pat.isPrefixOf (c :: rest) : Bool)) := by
      rintro ⟨hne, hpre⟩
      rw [List.isPrefixOf_iff_prefix] at hpre
      exact h hpre.isInfix
    rw [if_neg hnp]
    congr 1
    apply ih
    intro hinf
    exact h (List.infix_cons hinf)

/-- The result of `replaceAllV` is the input, or it contains the replacement
text as a contiguous substring. -/
theorem replaceAllV_eq_or_contains (pat repl : Str) :
    ∀ s : Str, replaceAllV pat repl s = s ∨ repl <:+: replaceAllV pat repl s := by
  suffices H : ∀ (n : Nat) (s : Str), s.length ≤ n →
      (replaceAllV pat repl s = s ∨ repl <:+: replaceAllV pat repl s) by
    intro s; exact H s.length s le_rfl
  intro n
  induction n with
  | zero =>
    intro s h
    have : s = [] := List.eq_nil_of_length_eq_zero (Nat.le_zero.mp h)
    subst this; left; rfl
  | succ m ih =>
    intro s h
    cases s with
    | nil => left; rfl
    | cons c rest =>
      rw [replaceAllV_cons]
      by_cases hc : pat ≠ [] ∧ pat.isPrefixOf (c :: rest)
      · rw [if_pos hc]
        right
        exact ⟨[], replaceAllV pat repl ((c :: rest).drop pat.length), rfl⟩
      · rw [if_neg hc]
        rcases ih rest (by simp only [List.length_cons] at h; omega) with h1 | h2
        · left; rw [h1]
        · right; exact List.infix_cons h2

/-- Every character of the result comes from the input or from the
replacement text. -/
theorem mem_replaceAllV (pat repl : Str) :
    ∀ (s : Str) (x : Char), x ∈ replaceAllV pat repl s → x ∈ s ∨ x ∈ repl := by
  suffices H : ∀ (n : Nat) (s : Str), s.length ≤ n → ∀ x : Char,
      x ∈ replaceAllV pat repl s → x ∈ s ∨ x ∈ repl by
    intro s x hx; exact H s.length s le_rfl x hx
  intro n
  induction n with
  | zero =>
    intro s h x hx
    have : s = [] := List.eq_nil_of_length_eq_zero (Nat.le_zero.mp h)
    subst this
    simp [replaceAllV_nil] at hx
  | succ m ih =>
    intro s h x hx
    cases s with
    | nil => simp [replaceAllV_nil] at hx
    | cons c rest =>
      rw [replaceAllV_cons] at hx
      by_cases hc : pat ≠ [] ∧ pat.isPrefixOf (c :: rest)
      · rw [if_pos hc] at hx
        rcases List.mem_append.mp hx with hr | hd
        · right; exact hr
        · have hp : 1 ≤ pat.length := by
            cases pat with
            | nil => exact absurd rfl hc.1
            | cons _ _ => simp
          have hlen : ((c :: rest).drop pat.length).length ≤ m := by
            simp only [List.length_drop, List.length_cons]
            simp only [List.length_cons] at h
            omega
          rcases ih _ hlen x hd with h1 | h2
          · left; exact List.drop_subset _ _ h1
          · right; exact h2
      · rw [if_neg hc] at hx
        rcases List.mem_cons.mp hx with h1 | h2
        · left; exact h1 ▸ List.mem_cons_self c rest
        · rcases ih rest (by simp only [List.length_cons] at h; omega) x h2 with h3 | h4
          · left; exact List.mem_cons_of_mem c h3
          · right; exact h4

/-- If the pattern occurs, the result contains the replacement text. -/
theorem replaceAllV_contains_of_occ (pat repl : Str) (hne : pat ≠ []) :
    ∀ s : Str, pat <:+: s → repl <:+: replaceAllV pat repl s := by
  suffices H : ∀ (n : Nat) (s : Str), s.length ≤ n → pat <:+: s →
      repl <:+: replaceAllV pat repl s by
    intro s hs; exact H s.length s le_rfl hs
  intro n
  induction n with
  | zero =>
    intro s h hocc
    have : s = [] := List.eq_nil_of_length_eq_zero (Nat.le_zero.mp h)
    subst this
    have : pat = [] := List.eq_nil_of_infix_nil hocc
    exact absurd this hne
  | succ m ih =>
    intro s h hocc
    cases s with
    | nil =>
      have : pat = [] := List.eq_nil_of_infix_nil hocc
      exact absurd this hne
    | cons c rest =>
      rw [replaceAllV_cons]
      by_cases hc : pat ≠ [] ∧ pat.isPrefixOf (c :: rest)
      · rw [if_pos hc]
        exact ⟨[], replaceAllV pat repl ((c :: rest).drop pat.length), rfl⟩
      · rw [if_neg hc]
        have hrest : pat <:+: rest := by
          rcases hocc with ⟨x, y, hxy⟩
          cases x with
          | nil =>
            exfalso
            apply hc
            refine ⟨hne, ?_⟩
            rw [List.isPrefixOf_iff_prefix]
            exact ⟨y, by simpa using hxy⟩
          | cons d x' =>
            have : rest = x' ++ pat ++ y := by
              have := hxy
              simp only [List.cons_append, List.append_assoc] at this ⊢
              exact ((List.cons.injEq _ _ _ _).mp this).2.symm
            exact ⟨x', y, this.symm⟩
        exact List.infix_cons (ih rest (by simp only [List.length_cons] at h; omega) hrest)

/-- `isSubstr` decides infix occurrence. -/
theorem isSubstr_iff (pat : Str) :
    ∀ s : Str, isSubstr pat s = true ↔ pat <:+: s := by
  intro s
  induction s with
  | nil =>
    simp only [isSubstr, List.isEmpty_iff]
    constructor
    · intro h; subst h; exact List.infix_refl []
    · intro h; exact List.eq_nil_of_infix_nil h
  | cons c rest ih =>
    simp only [isSubstr, Bool.or_eq_true, ih, List.isPrefixOf_iff_prefix]
    constructor
    · rintro (h | h)
      · exact h.isInfix
      · exact List.infix_cons h
    · intro h
      rcases h with ⟨x, y, hxy⟩
      cases x with
      | nil => left; exact ⟨y, by simpa using hxy⟩
      | cons d x' =>
        right
        have : rest = x' ++ pat ++ y := by
          simp only [List.cons_append, List.append_assoc] at hxy ⊢
          exact ((List.cons.injEq _ _ _ _).mp hxy).2.symm
        exact ⟨x', y, this.symm⟩

/-! ## Occurrence counting -/

theorem countOcc_nil (pat : Str) : countOcc pat [] = 0 := rfl

/-- Splitting an occurrence count over an append when no occurrence crosses
the boundary. -/
theorem countOcc_append (pat : Str) :
    ∀ a b : Str,
      (∀ i, i < a.length → pat <+: ((a ++ b).drop i) → i + pat.length ≤ a.length) →
      countOcc pat (a ++ b) = countOcc pat a + countOcc pat b := by
  intro a
  induction a with
  | nil =>
    intro b _
    rw [List.nil_append]
    show countOcc pat b = 0 + countOcc pat b
    omega
  | cons c a' ih =>
    intro b hnc
    have hstep : countOcc pat ((c :: a') ++ b)
        = (if pat.isPrefixOf (c :: (a' ++ b)) then 1 else 0) + countOcc pat (a' ++ b) := rfl
    have hstep2 : countOcc pat (c :: a')
        = (if pat.isPrefixOf (c :: a') then 1 else 0) + countOcc pat a' := rfl
    have hih := ih b (fun i hi hp => by
      have := hnc (i + 1) (by simp only [List.length_cons]; omega)
        (by simpa using hp)
      simp only [List.length_cons] at this
      omega)
    rw [hstep, hstep2, hih]
    by_cases hc : pat <+: (c :: a')
    · have hc2 : pat <+: (c :: (a' ++ b)) :=
        hc.trans (by
          rw [show c :: (a' ++ b) = (c :: a') ++ b from rfl]
          exact List.prefix_append _ _)
      rw [if_pos ((List.isPrefixOf_iff_prefix).mpr hc2),
        if_pos ((List.isPrefixOf_iff_prefix).mpr hc)]
      omega
    · have hc2 : ¬ pat <+: (c :: (a' ++ b)) := by
        intro hp
        have hle := hnc 0 (by simp) (by simpa using hp)
        apply hc
        rw [List.prefix_iff_eq_take] at hp ⊢
        rw [hp, show c :: (a' ++ b) = (c :: a') ++ b from rfl,
          List.take_append_eq_append_take]
        have h0 : pat.length - (c :: a').length = 0 := by
          simp only [List.length_cons] at hle ⊢
          omega
        rw [h0]
        simp
      rw [if_neg (by simpa [List.isPrefixOf_iff_prefix] using hc2),
        if_neg (by simpa [List.isPrefixOf_iff_prefix] using hc)]
      omega

/-- Occurrence counts split over a concrete literal chunk: the side condition
is decidable for concrete `pat` and `L` (any occurrence that would cross into
`b` already mismatches inside `L`). -/
theorem countOcc_chunk (pat L : Str) (_hpat : pat ≠ [])
    (hnc : ∀ i, i < L.length → (i + pat.length ≤ L.length ∨
      ¬ ((pat.take (L.length - i)).isPrefixOf (L.drop i) = true))) :
    ∀ b, countOcc pat (L ++ b) = countOcc pat L + countOcc pat b := by
  intro b
  apply countOcc_append
  intro i hi hp
  rcases hnc i hi with h | h
  · exact h
  · exfalso
    apply h
    rw [List.drop_append_eq_append_drop] at hp
    have hz : i - L.length = 0 := by omega
    rw [hz, List.drop_zero] at hp
    rw [List.isPrefixOf_iff_prefix]
    obtain ⟨t, ht⟩ := hp
    have hlen : (L.drop i).length = L.length - i := by simp
    have h2 : L.drop i = pat.take (L.length - i) ++ t.take ((L.length - i) - pat.length) := by
      calc L.drop i = (L.drop i ++ b).take (L.length - i) := by
              rw [List.take_append_eq_append_take]
              have hz2 : L.length - i - (L.drop i).length = 0 := by
                rw [hlen]; omega
              rw [hz2]
              have : (L.drop i).take (L.length - i) = L.drop i := by
                rw [← hlen, List.take_length]
              rw [this]
              simp
        _ = (pat ++ t).take (L.length - i) := by rw [ht]
        _ = pat.take (L.length - i) ++ t.take ((L.length - i) - pat.length) :=
              List.take_append_eq_append_take
    exact ⟨t.take ((L.length - i) - pat.length), h2.symm⟩

/-- A head mismatch skips a character of the scanned text. -/
theorem countOcc_cons_ne (p : Char) (pt : Str) (c : Char) (rest : Str) (h : c ≠ p) :
    countOcc (p :: pt) (c :: rest) = countOcc (p :: pt) rest := by
  simp [countOcc, List.isPrefixOf, beq_iff_eq, Ne.symm h]

/-- Text without the pattern's head character contributes no occurrences,
and none crossing out of it either. -/
theorem countOcc_skip (p : Char) (pt : Str) :
    ∀ a b : Str, p ∉ a → countOcc (p :: pt) (a ++ b) = countOcc (p :: pt) b := by
  intro a
  induction a with
  | nil => intro b _; rfl
  | cons c a' ih =>
    intro b h
    rw [List.cons_append,
      countOcc_cons_ne p pt c (a' ++ b) (fun hc => h (hc ▸ List.mem_cons_self c a')),
      ih b (fun hm => h (List.mem_cons_of_mem c hm))]

/-! ## Character inventories of rendered numbers and escaped text -/

theorem dchar_mem (n : Nat) : dchar n ∈ "0123456789*".toList := by
  unfold dchar
  split <;> decide

theorem mem_natStrF (fuel : Nat) :
    ∀ (n : Nat) (c : Char), c ∈ natStrF fuel n → c ∈ "0123456789*".toList := by
  induction fuel with
  | zero =>
    intro n c hc
    simp only [natStrF, List.mem_singleton] at hc
    exact hc ▸ dchar_mem n
  | succ f ih =>
    intro n c hc
    simp only [natStrF] at hc
    by_cases hn : n < 10
    · rw [if_pos hn] at hc
      simp only [List.mem_singleton] at hc
      exact hc ▸ dchar_mem n
    · rw [if_neg hn] at hc
      rcases List.mem_append.mp hc with h | h
      · exact ih _ c h
      · simp only [List.mem_singleton] at h
        exact h ▸ dchar_mem (n % 10)

theorem mem_natStr (n : Nat) (c : Char) (h : c ∈ natStr n) :
    c ∈ "0123456789*".toList := mem_natStrF n n c h

theorem mem_intStr (i : Int) (c : Char) (h : c ∈ intStr i) :
    c ∈ "-0123456789*".toList := by
  have hsub : ∀ x ∈ "0123456789*".toList, x ∈ "-0123456789*".toList := by decide
  unfold intStr at h
  split_ifs at h with hi
  · rcases List.mem_cons.mp h with h1 | h2
    · subst h1; decide
    · exact hsub c (mem_natStr _ c h2)
  · exact hsub c (mem_natStr _ c h)

theorem intStr_no_lt (i : Int) : '<' ∉ intStr i :=
  fun h => absurd (mem_intStr i '<' h) (by decide)

/-- A single-character global replacement maps each character to a block. -/
theorem replaceAllV_single (c : Char) (r : Str) :
    ∀ s : Str, replaceAllV [c] r s = s.flatMap fun x => if x = c then r else [x] := by
  intro s
  induction s with
  | nil => rfl
  | cons x rest ih =>
    rw [replaceAllV_cons]
    by_cases hx : x = c
    · subst hx
      have hcond : (([x] : Str) ≠ [] ∧ (([x] : Str).isPrefixOf (x :: rest) : Bool)) := by
        refine ⟨by simp, ?_⟩
        simp [List.isPrefixOf]
      rw [if_pos hcond]
      rw [show (x :: rest).drop ([x] : Str).length = rest from rfl, ih]
      rw [List.flatMap_cons, if_pos rfl]
    · have hpre : (([c] : Str).isPrefixOf (x :: rest)) = false := by
        simp [List.isPrefixOf, Ne.symm hx]
      rw [if_neg (by simp [hpre])]
      rw [ih, List.flatMap_cons, if_neg hx]
      rfl

/-- The escaping chain escapes character by character. -/
theorem escapeChain_flatMap : ∀ s : Str, escapeChain s = s.flatMap escChar := by
  intro s
  unfold escapeChain
  rw [replaceAll_noDollar ['&'] "&amp;".toList _ (by decide),
    replaceAll_noDollar ['<'] "&lt;".toList _ (by decide),
    replaceAll_noDollar ['>'] "&gt;".toList _ (by decide),
    replaceAll_noDollar ['"'] "&quot;".toList _ (by decide),
    replaceAll_noDollar ['\''] "&apos;".toList _ (by decide)]
  rw [replaceAllV_single, replaceAllV_single, replaceAllV_single, replaceAllV_single,
    replaceAllV_single]
  rw [List.flatMap_assoc, List.flatMap_assoc, List.flatMap_assoc, List.flatMap_assoc]
  congr 1
  funext d
  by_cases h1 : d = '&'
  · subst h1; decide
  by_cases h2 : d = '<'
  · subst h2; decide
  by_cases h3 : d = '>'
  · subst h3; decide
  by_cases h4 : d = '"'
  · subst h4; decide
  by_cases h5 : d = '\''
  · subst h5; decide
  simp [escChar, h1, h2, h3, h4, h5]

/-- No escaped block contains a raw `<`. -/
theorem escChar_no_lt (d : Char) : '<' ∉ escChar d := by
  unfold escChar
  split_ifs with h1 h2 h3 h4 h5
  · decide
  · decide
  · decide
  · decide
  · decide
  · intro hm
    exact h2 (List.mem_singleton.mp hm).symm

/-- Every character of an escaped block is the original character or one of
the entity characters. -/
theorem escChar_mem (d c : Char) (h : c ∈ escChar d) :
    c = d ∨ c ∈ "&amp;ltgquos".toList := by
  have hs1 : ∀ x ∈ "&amp;".toList, x ∈ "&amp;ltgquos".toList := by decide
  have hs2 : ∀ x ∈ "&lt;".toList, x ∈ "&amp;ltgquos".toList := by decide
  have hs3 : ∀ x ∈ "&gt;".toList, x ∈ "&amp;ltgquos".toList := by decide
  have hs4 : ∀ x ∈ "&quot;".toList, x ∈ "&amp;ltgquos".toList := by decide
  have hs5 : ∀ x ∈ "&apos;".toList, x ∈ "&amp;ltgquos".toList := by decide
  unfold escChar at h
  split_ifs at h with h1 h2 h3 h4 h5
  · exact Or.inr (hs1 c h)
  · exact Or.inr (hs2 c h)
  · exact Or.inr (hs3 c h)
  · exact Or.inr (hs4 c h)
  · exact Or.inr (hs5 c h)
  · exact Or.inl (List.mem_singleton.mp h)

theorem escapeChain_no_lt (s : Str) : '<' ∉ escapeChain s := by
  rw [escapeChain_flatMap]
  intro hm
  rw [List.mem_flatMap] at hm
  obtain ⟨d, _, hc⟩ := hm
  exact escChar_no_lt d hc

theorem escapeXml_no_lt (s : Str) : '<' ∉ escapeXml s := by
  unfold escapeXml
  split_ifs with h
  · simp
  · exact escapeChain_no_lt s

theorem escapeForXml_no_lt (s : Str) : '<' ∉ escapeForXml s := by
  unfold escapeForXml
  split_ifs with h
  · simp
  · exact escapeChain_no_lt s

/-- Escaping introduces no `$`: the escaped form of a `$`-free string is
`$`-free (the five entities contain no `$` and other characters map to
themselves). -/
theorem escapeForXml_no_dollar (v : Str) (hd : '$' ∉ v) : '$' ∉ escapeForXml v := by
  intro hm
  unfold escapeForXml at hm
  split_ifs at hm with h
  · simp at hm
  · rw [escapeChain_flatMap, List.mem_flatMap] at hm
    obtain ⟨d, hdm, hc⟩ := hm
    rcases escChar_mem d _ hc with h1 | h2
    · exact hd (h1 ▸ hdm)
    · exact absurd h2 (by decide)

/-! ## Claim C4 — data-row cell counts -/

/-- One data cell contributes exactly one `<w:tc>` opening, whatever the
interpolated width, font and cell text are. -/
theorem dataCellXml_count (style : MergedStyle) (w : Int) (cell : Str) (b : Str)
    (hff : '<' ∉ style.fontFamily) :
    countOcc ('<' :: "w:tc>".toList) (dataCellXml style w cell ++ b)
      = 1 + countOcc ('<' :: "w:tc>".toList) b := by
  unfold dataCellXml
  simp only [List.append_assoc]
  rw [countOcc_chunk ('<' :: "w:tc>".toList) dcl1 (by simp) (by decide),
    countOcc_skip '<' "w:tc>".toList (intStr w) _ (intStr_no_lt w),
    countOcc_chunk ('<' :: "w:tc>".toList) dcl2 (by simp) (by decide),
    countOcc_skip '<' "w:tc>".toList style.fontFamily _ hff,
    countOcc_chunk ('<' :: "w:tc>".toList) dcl3 (by simp) (by decide),
    countOcc_skip '<' "w:tc>".toList style.fontFamily _ hff,
    countOcc_chunk ('<' :: "w:tc>".toList) dcl4 (by simp) (by decide),
    countOcc_skip '<' "w:tc>".toList (intStr style.fontSize) _ (intStr_no_lt _),
    countOcc_chunk ('<' :: "w:tc>".toList) dcl5 (by simp) (by decide),
    countOcc_skip '<' "w:tc>".toList (intStr style.fontSize) _ (intStr_no_lt _),
    countOcc_chunk ('<' :: "w:tc>".toList) dcl6 (by simp) (by decide),
    countOcc_skip '<' "w:tc>".toList style.fontFamily _ hff,
    countOcc_chunk ('<' :: "w:tc>".toList) dcl3 (by simp) (by decide),
    countOcc_skip '<' "w:tc>".toList style.fontFamily _ hff,
    countOcc_chunk ('<' :: "w:tc>".toList) dcl4 (by simp) (by decide),
    countOcc_skip '<' "w:tc>".toList (intStr style.fontSize) _ (intStr_no_lt _),
    countOcc_chunk ('<' :: "w:tc>".toList) dcl5 (by simp) (by decide),
    countOcc_skip '<' "w:tc>".toList (intStr style.fontSize) _ (intStr_no_lt _),
    countOcc_chunk ('<' :: "w:tc>".toList) dcl10 (by simp) (by decide),
    countOcc_skip '<' "w:tc>".toList (escapeXml cell) _ (escapeXml_no_lt cell),
    countOcc_chunk ('<' :: "w:tc>".toList) dcl11 (by simp) (by decide)]
  have e1 : countOcc ('<' :: "w:tc>".toList) dcl1 = 1 := by decide
  have e2 : countOcc ('<' :: "w:tc>".toList) dcl2 = 0 := by decide
  have e3 : countOcc ('<' :: "w:tc>".toList) dcl3 = 0 := by decide
  have e4 : countOcc ('<' :: "w:tc>".toList) dcl4 = 0 := by decide
  have e5 : countOcc ('<' :: "w:tc>".toList) dcl5 = 0 := by decide
  have e6 : countOcc ('<' :: "w:tc>".toList) dcl6 = 0 := by decide
  have e10 : countOcc ('<' :: "w:tc>".toList) dcl10 = 0 := by decide
  have e11 : countOcc ('<' :: "w:tc>".toList) dcl11 = 0 := by decide
  simp only [e1, e2, e3, e4, e5, e6, e10, e11]
  omega

/-- The cell list of a data row contributes one `<w:tc>` per entry. -/
theorem dataCells_count (style : MergedStyle) (widths : List Int)
    (hff : '<' ∉ style.fontFamily) :
    ∀ (cells : List Str) (i : Nat) (b : Str),
      countOcc ('<' :: "w:tc>".toList) (dataCells style widths cells i ++ b)
        = cells.length + countOcc ('<' :: "w:tc>".toList) b := by
  intro cells
  induction cells with
  | nil => intro i b; simp [dataCells]
  | cons c cs ih =>
    intro i b
    simp only [dataCells, List.append_assoc]
    rw [dataCellXml_count style _ c _ hff, ih (i + 1) b]
    simp only [List.length_cons]
    omega

/-- C4 counterexample: a row of 2 cells against 1 column renders 2 cell
elements, not `min 2 1 = 1` — extras are not dropped. -/
theorem dataRow_cell_count_cex :
    countOcc "<w:tc>".toList
        (generateTableDataRow ["a".toList, "b".toList] [1000] DEFAULT_TABLE_STYLE) = 2 ∧
      countOcc "<w:tc>".toList
        (generateTableDataRow ["a".toList, "b".toList] [1000] DEFAULT_TABLE_STYLE)
        ≠ min 2 1 := by
  constructor
  · decide
  · decide

/-- C4 amended: for every column list, data row and style (whose font family
contains no raw `<`), the rendered data row contains exactly `length r` cell
elements — a row with fewer cells than columns renders exactly that many
cells with no padding inserted, and a row with more cells than columns still
renders all of them (extra cells get the fallback width `2000`). -/
theorem dataRow_cell_count_amended (cells : List Str) (widths : List Int)
    (style : MergedStyle) (hff : '<' ∉ style.fontFamily) :
    countOcc "<w:tc>".toList (generateTableDataRow cells widths style)
      = cells.length := by
  have hpp : ("<w:tc>".toList : Str) = '<' :: "w:tc>".toList := rfl
  rw [hpp]
  unfold generateTableDataRow
  simp only [List.append_assoc]
  rw [countOcc_chunk ('<' :: "w:tc>".toList) drOpen (by simp) (by decide),
    dataCells_count style widths hff cells 0 drClose]
  have e0 : countOcc ('<' :: "w:tc>".toList) drOpen = 0 := by decide
  have e1 : countOcc ('<' :: "w:tc>".toList) drClose = 0 := by decide
  rw [e0, e1]
  omega

/-- Witness for the amended C4 at the counterexample's input. -/
theorem dataRow_cell_count_amended_witness :
    countOcc "<w:tc>".toList
      (generateTableDataRow ["a".toList, "b".toList] [1000] DEFAULT_TABLE_STYLE) = 2 :=
  dataRow_cell_count_amended _ _ _ (by decide)

/-! ## Foundational lemmas on `scanReplaceV` -/

theorem scanReplaceVF_congr (pat : List RElem) (repl : Str) :
    ∀ f1 f2 s, List.length s ≤ f1 → List.length s ≤ f2 →
      scanReplaceVF pat repl f1 s = scanReplaceVF pat repl f2 s := by
  intro f1
  induction f1 with
  | zero =>
    intro f2 s h1 _
    have hs : s = [] := List.eq_nil_of_length_eq_zero (Nat.le_zero.mp h1)
    subst hs
    cases f2 <;> rfl
  | succ n ih =>
    intro f2 s h1 h2
    cases s with
    | nil => cases f2 <;> rfl
    | cons c rest =>
      cases f2 with
      | zero => simp at h2
      | succ m =>
        simp only [scanReplaceVF]
        rcases h : tryMatch pat (c :: rest) with _ | k
        · simp only [h]
          rw [ih m rest (by simp only [List.length_cons] at h1; omega)
            (by simp only [List.length_cons] at h2; omega)]
        · simp only [h]
          by_cases hk : k = 0
          · subst hk
            rw [ih m rest (by simp only [List.length_cons] at h1; omega)
              (by simp only [List.length_cons] at h2; omega)]
            simp only [if_true]
          · rw [if_neg hk, if_neg hk]
            rw [ih m ((c :: rest).drop k)
              (by simp only [List.length_drop, List.length_cons] at h1 ⊢; omega)
              (by simp only [List.length_drop, List.length_cons] at h2 ⊢; omega)]

theorem scanReplaceV_nil (pat : List RElem) (repl : Str) :
    scanReplaceV pat repl [] = [] := rfl

theorem scanReplaceV_cons_none (pat : List RElem) (repl : Str) (c : Char) (rest : Str)
    (h : tryMatch pat (c :: rest) = none) :
    scanReplaceV pat repl (c :: rest) = c :: scanReplaceV pat repl rest := by
  show scanReplaceVF pat repl (c :: rest).length (c :: rest) = _
  simp only [List.length_cons, scanReplaceVF, h]
  rfl

theorem scanReplaceV_cons_zero (pat : List RElem) (repl : Str) (c : Char) (rest : Str)
    (h : tryMatch pat (c :: rest) = some 0) :
    scanReplaceV pat repl (c :: rest) = repl ++ c :: scanReplaceV pat repl rest := by
  show scanReplaceVF pat repl (c :: rest).length (c :: rest) = _
  simp only [List.length_cons, scanReplaceVF, h, if_true]
  rfl

theorem scanReplaceV_cons_some (pat : List RElem) (repl : Str) (c : Char) (rest : Str)
    (n : Nat) (h : tryMatch pat (c :: rest) = some n) (hn : n ≠ 0) :
    scanReplaceV pat repl (c :: rest) = repl ++ scanReplaceV pat repl ((c :: rest).drop n) := by
  show scanReplaceVF pat repl (c :: rest).length (c :: rest) = _
  simp only [List.length_cons, scanReplaceVF, h, if_neg hn]
  congr 1
  apply scanReplaceVF_congr
  · simp only [List.length_drop, List.length_cons]
    omega
  · rfl

/-- The result of the regex pass is the input, or it contains the
replacement text. -/
theorem scanReplaceV_eq_or_contains (pat : List RElem) (repl : Str) :
    ∀ s : Str, scanReplaceV pat repl s = s ∨ repl <:+: scanReplaceV pat repl s := by
  suffices H : ∀ (n : Nat) (s : Str), s.length ≤ n →
      (scanReplaceV pat repl s = s ∨ repl <:+: scanReplaceV pat repl s) by
    intro s; exact H s.length s le_rfl
  intro n
  induction n with
  | zero =>
    intro s h
    have : s = [] := List.eq_nil_of_length_eq_zero (Nat.le_zero.mp h)
    subst this; left; rfl
  | succ m ih =>
    intro s h
    cases s with
    | nil => left; rfl
    | cons c rest =>
      rcases hm : tryMatch pat (c :: rest) with _ | k
      · rw [scanReplaceV_cons_none pat repl c rest hm]
        rcases ih rest (by simp only [List.length_cons] at h; omega) with h1 | h2
        · left; rw [h1]
        · right; exact List.infix_cons h2
      · by_cases hk : k = 0
        · subst hk
          rw [scanReplaceV_cons_zero pat repl c rest hm]
          right
          exact ⟨[], c :: scanReplaceV pat repl rest, rfl⟩
        · rw [scanReplaceV_cons_some pat repl c rest k hm hk]
          right
          exact ⟨[], scanReplaceV pat repl ((c :: rest).drop k), rfl⟩

/-- Every character of the regex pass's output comes from the input or from
the replacement text. -/
theorem mem_scanReplaceV (pat : List RElem) (repl : Str) :
    ∀ (s : Str) (x : Char), x ∈ scanReplaceV pat repl s → x ∈ s ∨ x ∈ repl := by
  suffices H : ∀ (n : Nat) (s : Str), s.length ≤ n → ∀ x : Char,
      x ∈ scanReplaceV pat repl s → x ∈ s ∨ x ∈ repl by
    intro s x hx; exact H s.length s le_rfl x hx
  intro n
  induction n with
  | zero =>
    intro s h x hx
    have : s = [] := List.eq_nil_of_length_eq_zero (Nat.le_zero.mp h)
    subst this
    simp [scanReplaceV_nil] at hx
  | succ m ih =>
    intro s h x hx
    cases s with
    | nil => simp [scanReplaceV_nil] at hx
    | cons c rest =>
      rcases hm : tryMatch pat (c :: rest) with _ | k
      · rw [scanReplaceV_cons_none pat repl c rest hm] at hx
        rcases List.mem_cons.mp hx with h1 | h2
        · left; exact h1 ▸ List.mem_cons_self c rest
        · rcases ih rest (by simp only [List.length_cons] at h; omega) x h2 with h3 | h4
          · left; exact List.mem_cons_of_mem c h3
          · right; exact h4
      · by_cases hk : k = 0
        · subst hk
          rw [scanReplaceV_cons_zero pat repl c rest hm] at hx
          rcases List.mem_append.mp hx with h1 | h2
          · right; exact h1
          · rcases List.mem_cons.mp h2 with h3 | h4
            · left; exact h3 ▸ List.mem_cons_self c rest
            · rcases ih rest (by simp only [List.length_cons] at h; omega) x h4 with h5 | h6
              · left; exact List.mem_cons_of_mem c h5
              · right; exact h6
        · rw [scanReplaceV_cons_some pat repl c rest k hm hk] at hx
          rcases List.mem_append.mp hx with h1 | h2
          · right; exact h1
          · have hlen : ((c :: rest).drop k).length ≤ m := by
              simp only [List.length_drop, List.length_cons]
              simp only [List.length_cons] at h
              omega
            rcases ih _ hlen x h2 with h3 | h4
            · left; exact List.drop_subset _ _ h3
            · right; exact h4

/-! ## Claim C1 — escape / unescape round-trip

`unescapeXml` is shown to act blockwise on `escapeForXml`'s output: each
decoding pass transforms the per-character block map (`escChar` through
`escChar4`), and the last pass restores the original string — provided the
original contains none of `&lt;`, `&gt;`, `&quot;`, `&apos;` (a literal such
occurrence in the input is double-decoded, which is the counterexample). -/

/-- A head-character mismatch, for a pattern given by its head. -/
theorem replaceAllV_cons_ne' (pat repl : Str) (p c : Char) (rest : Str)
    (hp : pat.head? = some p) (h : c ≠ p) :
    replaceAllV pat repl (c :: rest) = c :: replaceAllV pat repl rest := by
  cases pat with
  | nil => simp at hp
  | cons q qt =>
    rw [List.head?_cons, Option.some.injEq] at hp
    exact replaceAllV_cons_ne q qt repl c rest (hp ▸ h)

/-- Stepping over a block inside which every potential match already
mismatches (decidable for concrete pattern and block). -/
theorem replaceAllV_chunk_skip (pat repl : Str) :
    ∀ B : Str, (∀ i, i < B.length →
        ((pat.take (B.length - i)).isPrefixOf (B.drop i)) = false) →
      ∀ rest, replaceAllV pat repl (B ++ rest) = B ++ replaceAllV pat repl rest := by
  intro B
  induction B with
  | nil => intro _ rest; rfl
  | cons c B' ih =>
    intro hno rest
    rw [List.cons_append, replaceAllV_cons]
    have hnm : ¬ (pat ≠ [] ∧ (pat.isPrefixOf (c :: (B' ++ rest)) : Bool)) := by
      rintro ⟨_, hpre⟩
      rw [List.isPrefixOf_iff_prefix] at hpre
      have h0 := hno 0 (by simp)
      rw [Nat.sub_zero, List.drop_zero] at h0
      obtain ⟨t, ht⟩ := hpre
      have ht2 : pat ++ t = (c :: B') ++ rest := by simpa using ht
      have htake := congrArg (List.take (c :: B').length) ht2
      rw [List.take_append_eq_append_take, List.take_append_eq_append_take,
        Nat.sub_self, List.take_zero, List.append_nil, List.take_length] at htake
      have : (pat.take (c :: B').length).isPrefixOf (c :: B') = true := by
        rw [List.isPrefixOf_iff_prefix]
        exact ⟨t.take ((c :: B').length - pat.length), htake⟩
      rw [this] at h0
      exact absurd h0 (by simp)
    rw [if_neg hnm]
    have hno' : ∀ i, i < B'.length →
        ((pat.take (B'.length - i)).isPrefixOf (B'.drop i)) = false := by
      intro i hi
      have := hno (i + 1) (by simp only [List.length_cons]; omega)
      simpa using this
    rw [ih hno' rest, List.cons_append]

/-- A prefix made of non-`&` characters of a blockwise-mapped string lifts
to a prefix of the underlying string, when every block is a singleton or
starts with `&`. -/
theorem prefix_flatMap_plain (f : Char → Str)
    (hf : ∀ d, f d = [d] ∨ ∃ t, f d = '&' :: t) :
    ∀ w rest : Str, (∀ x ∈ w, x ≠ '&') → w <+: rest.flatMap f → w <+: rest := by
  intro w
  induction w with
  | nil => intro rest _ _; exact List.nil_prefix
  | cons x w' ih =>
    intro rest hx hp
    cases rest with
    | nil => simp at hp
    | cons d rest' =>
      rw [List.flatMap_cons] at hp
      rcases hf d with hfd | ⟨t, hfd⟩
      · rw [hfd, List.singleton_append, List.cons_prefix_cons] at hp
        obtain ⟨hxd, hp'⟩ := hp
        rw [List.cons_prefix_cons]
        exact ⟨hxd, ih rest' (fun y hy => hx y (List.mem_cons_of_mem x hy)) hp'⟩
      · rw [hfd, List.cons_append, List.cons_prefix_cons] at hp
        exact absurd hp.1 (hx x (List.mem_cons_self x w'))

theorem escChar1_shape (d : Char) : escChar1 d = [d] ∨ ∃ t, escChar1 d = '&' :: t := by
  unfold escChar1 escChar
  split_ifs with h1 h2 h3 h4 h5
  · exact Or.inl (by rw [h1])
  · exact Or.inr ⟨"lt;".toList, rfl⟩
  · exact Or.inr ⟨"gt;".toList, rfl⟩
  · exact Or.inr ⟨"quot;".toList, rfl⟩
  · exact Or.inr ⟨"apos;".toList, rfl⟩
  · exact Or.inl rfl

theorem escChar2_shape (d : Char) : escChar2 d = [d] ∨ ∃ t, escChar2 d = '&' :: t := by
  unfold escChar2
  split_ifs with h
  · exact Or.inl (by rw [h])
  · exact escChar1_shape d

theorem escChar3_shape (d : Char) : escChar3 d = [d] ∨ ∃ t, escChar3 d = '&' :: t := by
  unfold escChar3
  split_ifs with h
  · exact Or.inl (by rw [h])
  · exact escChar2_shape d

theorem escChar4_shape (d : Char) : escChar4 d = [d] ∨ ∃ t, escChar4 d = '&' :: t := by
  unfold escChar4
  split_ifs with h
  · exact Or.inl (by rw [h])
  · exact escChar3_shape d

/-- Pass 1 (`&amp;` → `&`): on fully escaped text the pass exactly undoes
the ampersand blocks (no hypothesis needed: in escaped text `&` occurs only
at block starts). -/
theorem unescape_pass1 : ∀ s : Str,
    replaceAllV "&amp;".toList ['&'] (s.flatMap escChar) = s.flatMap escChar1 := by
  intro s
  induction s with
  | nil => rfl
  | cons c rest ih =>
    rw [List.flatMap_cons, List.flatMap_cons]
    by_cases h1 : c = '&'
    · subst h1
      rw [show escChar '&' = "&amp;".toList from rfl,
        replaceAllV_at_head _ _ _ (by decide), ih]
      rfl
    by_cases h2 : c = '<'
    · subst h2
      rw [show escChar '<' = "&lt;".toList from rfl,
        replaceAllV_chunk_skip _ _ _ (by decide) _, ih]
      rfl
    by_cases h3 : c = '>'
    · subst h3
      rw [show escChar '>' = "&gt;".toList from rfl,
        replaceAllV_chunk_skip _ _ _ (by decide) _, ih]
      rfl
    by_cases h4 : c = '"'
    · subst h4
      rw [show escChar '"' = "&quot;".toList from rfl,
        replaceAllV_chunk_skip _ _ _ (by decide) _, ih]
      rfl
    by_cases h5 : c = '\''
    · subst h5
      rw [show escChar '\'' = "&apos;".toList from rfl,
        replaceAllV_chunk_skip _ _ _ (by decide) _, ih]
      rfl
    · rw [show escChar c = [c] from by simp [escChar, h1, h2, h3, h4, h5],
        show escChar1 c = [c] from by simp [escChar1, escChar, h1, h2, h3, h4, h5],
        List.singleton_append, List.singleton_append,
        replaceAllV_cons_ne' "&amp;".toList ['&'] '&' c _ rfl h1, ih]

/-- Pass 2 (`&lt;` → `<`): correct provided the original text does not
contain a literal `&lt;`. -/
theorem unescape_pass2 : ∀ s : Str, ¬ ("&lt;".toList <:+: s) →
    replaceAllV "&lt;".toList ['<'] (s.flatMap escChar1) = s.flatMap escChar2 := by
  intro s
  induction s with
  | nil => intro _; rfl
  | cons c rest ih =>
    intro h
    have ih' := ih fun hi => h (List.infix_cons hi)
    rw [List.flatMap_cons, List.flatMap_cons]
    by_cases h2 : c = '<'
    · subst h2
      rw [show escChar1 '<' = "&lt;".toList from rfl,
        replaceAllV_at_head _ _ _ (by decide), ih']
      rfl
    by_cases h1 : c = '&'
    · subst h1
      rw [show escChar1 '&' = ['&'] from rfl, List.singleton_append, replaceAllV_cons]
      have hnm : ¬ (("&lt;".toList : Str) ≠ [] ∧
          (("&lt;".toList : Str).isPrefixOf ('&' :: rest.flatMap escChar1) : Bool)) := by
        rintro ⟨_, hpre⟩
        rw [List.isPrefixOf_iff_prefix,
          show ("&lt;".toList : Str) = '&' :: ['l', 't', ';'] from rfl,
          List.cons_prefix_cons] at hpre
        obtain ⟨-, hp'⟩ := hpre
        obtain ⟨t, ht⟩ := prefix_flatMap_plain escChar1 escChar1_shape
          ['l', 't', ';'] rest (by decide) hp'
        apply h
        refine ⟨[], t, ?_⟩
        rw [List.nil_append,
          show ("&lt;".toList : Str) ++ t = '&' :: (['l', 't', ';'] ++ t) from rfl, ht]
      rw [if_neg hnm, ih']
      rfl
    by_cases h3 : c = '>'
    · subst h3
      rw [show escChar1 '>' = "&gt;".toList from rfl,
        replaceAllV_chunk_skip _ _ _ (by decide) _, ih']
      rfl
    by_cases h4 : c = '"'
    · subst h4
      rw [show escChar1 '"' = "&quot;".toList from rfl,
        replaceAllV_chunk_skip _ _ _ (by decide) _, ih']
      rfl
    by_cases h5 : c = '\''
    · subst h5
      rw [show escChar1 '\'' = "&apos;".toList from rfl,
        replaceAllV_chunk_skip _ _ _ (by decide) _, ih']
      rfl
    · rw [show escChar1 c = [c] from by simp [escChar1, escChar, h1, h2, h3, h4, h5],
        show escChar2 c = [c] from by simp [escChar2, escChar1, escChar, h1, h2, h3, h4, h5],
        List.singleton_append, List.singleton_append,
        replaceAllV_cons_ne' "&lt;".toList ['<'] '&' c _ rfl h1, ih']

/-- Pass 3 (`&gt;` → `>`): correct provided the original text does not
contain a literal `&gt;`. -/
theorem unescape_pass3 : ∀ s : Str, ¬ ("&gt;".toList <:+: s) →
    replaceAllV "&gt;".toList ['>'] (s.flatMap escChar2) = s.flatMap escChar3 := by
  intro s
  induction s with
  | nil => intro _; rfl
  | cons c rest ih =>
    intro h
    have ih' := ih fun hi => h (List.infix_cons hi)
    rw [List.flatMap_cons, List.flatMap_cons]
    by_cases h3 : c = '>'
    · subst h3
      rw [show escChar2 '>' = "&gt;".toList from rfl,
        replaceAllV_at_head _ _ _ (by decide), ih']
      rfl
    by_cases h1 : c = '&'
    · subst h1
      rw [show escChar2 '&' = ['&'] from rfl, List.singleton_append, replaceAllV_cons]
      have hnm : ¬ (("&gt;".toList : Str) ≠ [] ∧
          (("&gt;".toList : Str).isPrefixOf ('&' :: rest.flatMap escChar2) : Bool)) := by
        rintro ⟨_, hpre⟩
        rw [List.isPrefixOf_iff_prefix,
          show ("&gt;".toList : Str) = '&' :: ['g', 't', ';'] from rfl,
          List.cons_prefix_cons] at hpre
        obtain ⟨-, hp'⟩ := hpre
        obtain ⟨t, ht⟩ := prefix_flatMap_plain escChar2 escChar2_shape
          ['g', 't', ';'] rest (by decide) hp'
        apply h
        refine ⟨[], t, ?_⟩
        rw [List.nil_append,
          show ("&gt;".toList : Str) ++ t = '&' :: (['g', 't', ';'] ++ t) from rfl, ht]
      rw [if_neg hnm, ih']
      rfl
    by_cases h2 : c = '<'
    · subst h2
      rw [show escChar2 '<' = ['<'] from rfl, show escChar3 '<' = ['<'] from rfl,
        List.singleton_append, List.singleton_append,
        replaceAllV_cons_ne' "&gt;".toList ['>'] '&' '<' _ rfl (by decide), ih']
    by_cases h4 : c = '"'
    · subst h4
      rw [show escChar2 '"' = "&quot;".toList from rfl,
        replaceAllV_chunk_skip _ _ _ (by decide) _, ih']
      rfl
    by_cases h5 : c = '\''
    · subst h5
      rw [show escChar2 '\'' = "&apos;".toList from rfl,
        replaceAllV_chunk_skip _ _ _ (by decide) _, ih']
      rfl
    · rw [show escChar2 c = [c] from by
          simp [escChar2, escChar1, escChar, h1, h2, h3, h4, h5],
        show escChar3 c = [c] from by
          simp [escChar3, escChar2, escChar1, escChar, h1, h2, h3, h4, h5],
        List.singleton_append, List.singleton_append,
        replaceAllV_cons_ne' "&gt;".toList ['>'] '&' c _ rfl h1, ih']

/-- Pass 4 (`&quot;` → `"`): correct provided the original text does not
contain a literal `&quot;`. -/
theorem unescape_pass4 : ∀ s : Str, ¬ ("&quot;".toList <:+: s) →
    replaceAllV "&quot;".toList ['"'] (s.flatMap escChar3) = s.flatMap escChar4 := by
  intro s
  induction s with
  | nil => intro _; rfl
  | cons c rest ih =>
    intro h
    have ih' := ih fun hi => h (List.infix_cons hi)
    rw [List.flatMap_cons, List.flatMap_cons]
    by_cases h4 : c = '"'
    · subst h4
      rw [show escChar3 '"' = "&quot;".toList from rfl,
        replaceAllV_at_head _ _ _ (by decide), ih']
      rfl
    by_cases h1 : c = '&'
    · subst h1
      rw [show escChar3 '&' = ['&'] from rfl, List.singleton_append, replaceAllV_cons]
      have hnm : ¬ (("&quot;".toList : Str) ≠ [] ∧
          (("&quot;".toList : Str).isPrefixOf ('&' :: rest.flatMap escChar3) : Bool)) := by
        rintro ⟨_, hpre⟩
        rw [List.isPrefixOf_iff_prefix,
          show ("&quot;".toList : Str) = '&' :: ['q', 'u', 'o', 't', ';'] from rfl,
          List.cons_prefix_cons] at hpre
        obtain ⟨-, hp'⟩ := hpre
        obtain ⟨t, ht⟩ := prefix_flatMap_plain escChar3 escChar3_shape
          ['q', 'u', 'o', 't', ';'] rest (by decide) hp'
        apply h
        refine ⟨[], t, ?_⟩
        rw [List.nil_append,
          show ("&quot;".toList : Str) ++ t = '&' :: (['q', 'u', 'o', 't', ';'] ++ t) from rfl,
          ht]
      rw [if_neg hnm, ih']
      rfl
    by_cases h2 : c = '<'
    · subst h2
      rw [show escChar3 '<' = ['<'] from rfl, show escChar4 '<' = ['<'] from rfl,
        List.singleton_append, List.singleton_append,
        replaceAllV_cons_ne' "&quot;".toList ['"'] '&' '<' _ rfl (by decide), ih']
    by_cases h3 : c = '>'
    · subst h3
      rw [show escChar3 '>' = ['>'] from rfl, show escChar4 '>' = ['>'] from rfl,
        List.singleton_append, List.singleton_append,
        replaceAllV_cons_ne' "&quot;".toList ['"'] '&' '>' _ rfl (by decide), ih']
    by_cases h5 : c = '\''
    · subst h5
      rw [show escChar3 '\'' = "&apos;".toList from rfl,
        replaceAllV_chunk_skip _ _ _ (by decide) _, ih']
      rfl
    · rw [show escChar3 c = [c] from by
          simp [escChar3, escChar2, escChar1, escChar, h1, h2, h3, h4, h5],
        show escChar4 c = [c] from by
          simp [escChar4, escChar3, escChar2, escChar1, escChar, h1, h2, h3, h4, h5],
        List.singleton_append, List.singleton_append,
        replaceAllV_cons_ne' "&quot;".toList ['"'] '&' c _ rfl h1, ih']

/-- Pass 5 (`&apos;` → `'`): restores the original string, provided it does
not contain a literal `&apos;`. -/
theorem unescape_pass5 : ∀ s : Str, ¬ ("&apos;".toList <:+: s) →
    replaceAllV "&apos;".toList ['\''] (s.flatMap escChar4) = s := by
  intro s
  induction s with
  | nil => intro _; rfl
  | cons c rest ih =>
    intro h
    have ih' := ih fun hi => h (List.infix_cons hi)
    rw [List.flatMap_cons]
    by_cases h5 : c = '\''
    · subst h5
      rw [show escChar4 '\'' = "&apos;".toList from rfl,
        replaceAllV_at_head _ _ _ (by decide), ih']
      rfl
    by_cases h1 : c = '&'
    · subst h1
      rw [show escChar4 '&' = ['&'] from rfl, List.singleton_append, replaceAllV_cons]
      have hnm : ¬ (("&apos;".toList : Str) ≠ [] ∧
          (("&apos;".toList : Str).isPrefixOf ('&' :: rest.flatMap escChar4) : Bool)) := by
        rintro ⟨_, hpre⟩
        rw [List.isPrefixOf_iff_prefix,
          show ("&apos;".toList : Str) = '&' :: ['a', 'p', 'o', 's', ';'] from rfl,
          List.cons_prefix_cons] at hpre
        obtain ⟨-, hp'⟩ := hpre
        obtain ⟨t, ht⟩ := prefix_flatMap_plain escChar4 escChar4_shape
          ['a', 'p', 'o', 's', ';'] rest (by decide) hp'
        apply h
        refine ⟨[], t, ?_⟩
        rw [List.nil_append,
          show ("&apos;".toList : Str) ++ t = '&' :: (['a', 'p', 'o', 's', ';'] ++ t) from rfl,
          ht]
      rw [if_neg hnm, ih']
    by_cases h2 : c = '<'
    · subst h2
      rw [show escChar4 '<' = ['<'] from rfl, List.singleton_append,
        replaceAllV_cons_ne' "&apos;".toList ['\''] '&' '<' _ rfl (by decide), ih']
    by_cases h3 : c = '>'
    · subst h3
      rw [show escChar4 '>' = ['>'] from rfl, List.singleton_append,
        replaceAllV_cons_ne' "&apos;".toList ['\''] '&' '>' _ rfl (by decide), ih']
    by_cases h4 : c = '"'
    · subst h4
      rw [show escChar4 '"' = ['"'] from rfl, List.singleton_append,
        replaceAllV_cons_ne' "&apos;".toList ['\''] '&' '"' _ rfl (by decide), ih']
    · rw [show escChar4 c = [c] from by
          simp [escChar4, escChar3, escChar2, escChar1, escChar, h1, h2, h3, h4, h5],
        List.singleton_append,
        replaceAllV_cons_ne' "&apos;".toList ['\''] '&' c _ rfl h1, ih']

/-- Every escaped block is nonempty. -/
theorem escChar_ne_nil (d : Char) : escChar d ≠ [] := by
  unfold escChar
  split_ifs <;> simp

/-- C1 counterexample: decoding the encoded form of the literal string
`&lt;` yields `<`, not the original — `unescapeXml`'s sequential passes
re-decode the text produced by the `&amp;` pass. -/
theorem escape_roundtrip_cex :
    unescapeXml (escapeForXml "&lt;".toList) = "<".toList ∧
      unescapeXml (escapeForXml "&lt;".toList) ≠ "&lt;".toList := by
  constructor
  · decide
  · decide

/-- C1 amended: `unescapeXml (escapeForXml s) = s` for every string `s` that
does not already contain one of the four entity spellings `&lt;`, `&gt;`,
`&quot;`, `&apos;` as a substring (a literal `&amp;` in `s` is fine). -/
theorem escape_roundtrip_amended (s : Str)
    (h2 : ¬ "&lt;".toList <:+: s) (h3 : ¬ "&gt;".toList <:+: s)
    (h4 : ¬ "&quot;".toList <:+: s) (h5 : ¬ "&apos;".toList <:+: s) :
    unescapeXml (escapeForXml s) = s := by
  by_cases hs : s = []
  · subst hs; rfl
  · have he : escapeForXml s = s.flatMap escChar := by
      unfold escapeForXml
      rw [if_neg hs]
      exact escapeChain_flatMap s
    have hne : s.flatMap escChar ≠ [] := by
      cases s with
      | nil => exact absurd rfl hs
      | cons c rest =>
        rw [List.flatMap_cons]
        intro hh
        rcases List.append_eq_nil.mp hh with ⟨hb, -⟩
        exact escChar_ne_nil c hb
    rw [he]
    unfold unescapeXml
    rw [if_neg hne,
      replaceAll_noDollar "&amp;".toList ['&'] _ (by decide),
      unescape_pass1 s,
      replaceAll_noDollar "&lt;".toList ['<'] _ (by decide),
      unescape_pass2 s h2,
      replaceAll_noDollar "&gt;".toList ['>'] _ (by decide),
      unescape_pass3 s h3,
      replaceAll_noDollar "&quot;".toList ['"'] _ (by decide),
      unescape_pass4 s h4,
      replaceAll_noDollar "&apos;".toList ['\''] _ (by decide),
      unescape_pass5 s h5]

/-- Witness for the amended C1 at `"a & b"`. -/
theorem escape_roundtrip_amended_witness :
    unescapeXml (escapeForXml "a & b".toList) = "a & b".toList :=
  escape_roundtrip_amended _
    (fun h => absurd ((isSubstr_iff _ _).mpr h) (by decide))
    (fun h => absurd ((isSubstr_iff _ _).mpr h) (by decide))
    (fun h => absurd ((isSubstr_iff _ _).mpr h) (by decide))
    (fun h => absurd ((isSubstr_iff _ _).mpr h) (by decide))

/-! ## Claim C2 — single-occurrence substitution -/

/-- Escaping introduces no braces and preserves brace-freeness. -/
theorem escapeForXml_no_brace (v : Str) (hv : ∀ x ∈ v, x ≠ '\x7b' ∧ x ≠ '\x7d') :
    ∀ x ∈ escapeForXml v, x ≠ '\x7b' ∧ x ≠ '\x7d' := by
  intro x hx
  unfold escapeForXml at hx
  split_ifs at hx with h
  · simp at hx
  · rw [escapeChain_flatMap] at hx
    rw [List.mem_flatMap] at hx
    obtain ⟨d, hd, hc⟩ := hx
    rcases escChar_mem d x hc with h1 | h2
    · exact h1 ▸ hv d hd
    · have hset : ∀ y ∈ "&amp;ltgquos".toList, y ≠ '\x7b' ∧ y ≠ '\x7d' := by decide
      exact hset x h2

/-- Exactly-one-occurrence replacement: with the pattern's head character
absent from the surrounding text, the single occurrence is replaced. -/
theorem replaceAllV_exact (p : Char) (pt repl a b : Str) (hpa : p ∉ a) (hpb : p ∉ b) :
    replaceAllV (p :: pt) repl (a ++ ((p :: pt) ++ b)) = a ++ (repl ++ b) := by
  rw [replaceAllV_append_clean p pt repl a ((p :: pt) ++ b) hpa,
    replaceAllV_at_head (p :: pt) repl b (by simp),
    replaceAllV_id_of_head_notMem p pt repl b hpb]

/-- C2 counterexample: the markup `{{x}}` contains exactly one occurrence of
`{{x}}`, yet substituting the value `{{x}}` leaves a literal `{{x}}` in the
output (the escaped value re-creates the token; escaping does not touch
braces). -/
theorem substitute_once_cex :
    countOcc "\x7b\x7bx\x7d\x7d".toList "\x7b\x7bx\x7d\x7d".toList = 1 ∧
      "\x7b\x7bx\x7d\x7d".toList <:+:
        replacePlaceholder "\x7b\x7bx\x7d\x7d".toList "x".toList
          "\x7b\x7bx\x7d\x7d".toList := by
  constructor
  · decide
  · have he : replacePlaceholder "\x7b\x7bx\x7d\x7d".toList "x".toList
        "\x7b\x7bx\x7d\x7d".toList = "\x7b\x7bx\x7d\x7d".toList := by decide
    rw [he]

/-- C2 amended: if the markup is `a ++ {{t}} ++ b` where the surrounding
text `a`, `b` and the raw value `v` contain no brace characters (so the
markup contains exactly one occurrence of `{{t}}` and the replacement cannot
re-create one), then the substitution result contains `escapeForXml v` as a
substring and contains no literal `{{t}}`.  Stated on the domain where the
embedding is exact: the token consists of ASCII letters (the source splices
it raw into the `RegExp`, so metacharacters would change the pattern or
throw) and the value contains no `$` (a `$` in the escaped value would
undergo `GetSubstitution` in the replacement position). -/
theorem substitute_once_amended (t v a b : Str)
    (ha : ∀ x ∈ a, x ≠ '\x7b' ∧ x ≠ '\x7d')
    (hb : ∀ x ∈ b, x ≠ '\x7b' ∧ x ≠ '\x7d')
    (hv : ∀ x ∈ v, x ≠ '\x7b' ∧ x ≠ '\x7d')
    (hd : '$' ∉ v)
    (ht : ∀ c ∈ t, isAsciiAlpha c = true) :
    escapeForXml v <:+:
        replacePlaceholder (a ++ ("\x7b\x7b".toList ++ t ++ "\x7d\x7d".toList) ++ b) t v ∧
      ¬ ("\x7b\x7b".toList ++ t ++ "\x7d\x7d".toList) <:+:
        replacePlaceholder (a ++ ("\x7b\x7b".toList ++ t ++ "\x7d\x7d".toList) ++ b) t v := by
  have hsafe := escapeForXml_no_brace v hv
  have hpat : ("\x7b\x7b".toList : Str) ++ t ++ "\x7d\x7d".toList
      = '\x7b' :: ('\x7b' :: (t ++ "\x7d\x7d".toList)) := by
    simp
  have hr1 : replaceAllV ("\x7b\x7b".toList ++ t ++ "\x7d\x7d".toList) (escapeForXml v)
      (a ++ ("\x7b\x7b".toList ++ t ++ "\x7d\x7d".toList) ++ b)
      = a ++ (escapeForXml v ++ b) := by
    rw [hpat, List.append_assoc]
    exact replaceAllV_exact '\x7b' ('\x7b' :: (t ++ "\x7d\x7d".toList)) _ a b
      (fun hm => (ha _ hm).1 rfl) (fun hm => (hb _ hm).1 rfl)
  have hr1free : ∀ x ∈ a ++ (escapeForXml v ++ b), x ≠ '\x7b' ∧ x ≠ '\x7d' := by
    intro x hx
    rcases List.mem_append.mp hx with h1 | h2
    · exact ha x h1
    · rcases List.mem_append.mp h2 with h3 | h4
      · exact hsafe x h3
      · exact hb x h4
  have hrep2free : ∀ x ∈ ("<w:t>".toList ++ escapeForXml v ++ "</w:t>".toList),
      x ≠ '\x7b' ∧ x ≠ '\x7d' := by
    intro x hx
    have hs1 : ∀ y ∈ "<w:t>".toList, y ≠ '\x7b' ∧ y ≠ '\x7d' := by decide
    have hs2 : ∀ y ∈ "</w:t>".toList, y ≠ '\x7b' ∧ y ≠ '\x7d' := by decide
    rcases List.mem_append.mp hx with h1 | h4
    · rcases List.mem_append.mp h1 with h2 | h3
      · exact hs1 x h2
      · exact hsafe x h3
    · exact hs2 x h4
  have hsafeinrep2 : escapeForXml v <:+:
      ("<w:t>".toList ++ escapeForXml v ++ "</w:t>".toList) :=
    ⟨"<w:t>".toList, "</w:t>".toList, rfl⟩
  have hsd : '$' ∉ escapeForXml v := escapeForXml_no_dollar v hd
  have hRd : '$' ∉ ("<w:t>".toList ++ escapeForXml v ++ "</w:t>".toList : Str) := by
    intro hm
    rcases List.mem_append.mp hm with h1 | h2
    · rcases List.mem_append.mp h1 with h3 | h4
      · exact absurd h3 (by decide)
      · exact hsd h4
    · exact absurd h2 (by decide)
  simp only [replacePlaceholder]
  rw [replaceAll_noDollar _ (escapeForXml v) _ hsd,
    replaceAll_noDollar _ _ _ hRd,
    scanReplace_noDollar _ _ _ hRd]
  rw [hr1]
  set r2 := replaceAllV ("<w:t>".toList ++ t ++ "</w:t>".toList)
    ("<w:t>".toList ++ escapeForXml v ++ "</w:t>".toList)
    (a ++ (escapeForXml v ++ b)) with hr2def
  have hr2free : ∀ x ∈ r2, x ≠ '\x7b' ∧ x ≠ '\x7d' := by
    intro x hx
    rcases mem_replaceAllV _ _ _ x hx with h1 | h2
    · exact hr1free x h1
    · exact hrep2free x h2
  have hr2safe : escapeForXml v <:+: r2 := by
    rcases replaceAllV_eq_or_contains ("<w:t>".toList ++ t ++ "</w:t>".toList)
      ("<w:t>".toList ++ escapeForXml v ++ "</w:t>".toList)
      (a ++ (escapeForXml v ++ b)) with h1 | h2
    · rw [hr2def, h1]
      exact ⟨a, b, by simp⟩
    · exact hsafeinrep2.trans h2
  set r3 := scanReplaceV (splitRunPat t)
    ("<w:t>".toList ++ escapeForXml v ++ "</w:t>".toList) r2 with hr3def
  have hr3free : ∀ x ∈ r3, x ≠ '\x7b' ∧ x ≠ '\x7d' := by
    intro x hx
    rcases mem_scanReplaceV _ _ _ x hx with h1 | h2
    · exact hr2free x h1
    · exact hrep2free x h2
  constructor
  · rcases scanReplaceV_eq_or_contains (splitRunPat t)
      ("<w:t>".toList ++ escapeForXml v ++ "</w:t>".toList) r2 with h1 | h2
    · rw [hr3def, h1]
      exact hr2safe
    · exact hsafeinrep2.trans h2
  · intro hinf
    have hmem : '\x7b' ∈ ("\x7b\x7b".toList : Str) ++ t ++ "\x7d\x7d".toList := by
      rw [hpat]
      exact List.mem_cons_self _ _
    have : '\x7b' ∈ r3 := hinf.sublist.subset hmem
    exact (hr3free _ this).1 rfl

/-- Witness for the amended C2 at `a = "A "`, `b = " B"`, token `x`, value
`hello`. -/
theorem substitute_once_amended_witness :
    escapeForXml "hello".toList <:+:
        replacePlaceholder ("A ".toList ++ ("\x7b\x7b".toList ++ "x".toList
          ++ "\x7d\x7d".toList) ++ " B".toList) "x".toList "hello".toList ∧
      ¬ ("\x7b\x7b".toList ++ "x".toList ++ "\x7d\x7d".toList) <:+:
        replacePlaceholder ("A ".toList ++ ("\x7b\x7b".toList ++ "x".toList
          ++ "\x7d\x7d".toList) ++ " B".toList) "x".toList "hello".toList :=
  substitute_once_amended "x".toList "hello".toList "A ".toList " B".toList
    (by decide) (by decide) (by decide) (by decide) (by decide)

/-! ## Claim C5 — relationship-id uniqueness -/

theorem dval_dchar : ∀ n < 10, dval (dchar n) = n := by decide

theorem valOf_append_digit (a : Str) (c : Char) :
    valOf (a ++ [c]) = 10 * valOf a + dval c := by
  simp [valOf, List.foldl_append]

theorem valOf_natStrF :
    ∀ (fuel n : Nat), n ≤ fuel → valOf (natStrF fuel n) = n := by
  intro fuel
  induction fuel with
  | zero =>
    intro n hn
    have h0 : n = 0 := Nat.le_zero.mp hn
    subst h0
    decide
  | succ f ih =>
    intro n hn
    simp only [natStrF]
    by_cases h10 : n < 10
    · rw [if_pos h10]
      have : valOf [dchar n] = dval (dchar n) := by simp [valOf]
      rw [this, dval_dchar n h10]
    · rw [if_neg h10]
      rw [valOf_append_digit, ih (n / 10) (by omega),
        dval_dchar (n % 10) (Nat.mod_lt _ (by omega))]
      omega

theorem valOf_natStr (n : Nat) : valOf (natStr n) = n :=
  valOf_natStrF n n le_rfl

theorem natStr_inj {a b : Nat} (h : natStr a = natStr b) : a = b := by
  have := congrArg valOf h
  rwa [valOf_natStr, valOf_natStr] at this

theorem candidateId_inj (index : Nat) {j k : Nat}
    (h : candidateId index j = candidateId index k) : j = k := by
  unfold candidateId at h
  have h2 := List.append_cancel_left h
  have h3 := natStr_inj h2
  omega

theorem idLoop_not_mem (existing : List Str) (index : Nat) :
    ∀ (fuel k : Nat), (∃ j, j < fuel ∧ candidateId index (k + j) ∉ existing) →
      idLoop existing index k fuel ∉ existing := by
  intro fuel
  induction fuel with
  | zero =>
    intro k ⟨j, hj, _⟩
    omega
  | succ f ih =>
    intro k ⟨j, hj, hfree⟩
    simp only [idLoop]
    by_cases hc : candidateId index k ∈ existing
    · rw [if_pos hc]
      apply ih (k + 1)
      cases j with
      | zero => exact absurd (by simpa using hc) (by simpa using hfree)
      | succ j' =>
        exact ⟨j', by omega, by
          have : k + 1 + j' = k + (j' + 1) := by omega
          rw [this]
          exact hfree⟩
    · rw [if_neg hc]
      exact hc

theorem exists_free_candidate (existing : List Str) (index k : Nat) :
    ∃ j, j < existing.length + 1 ∧ candidateId index (k + j) ∉ existing := by
  by_contra hall
  push_neg at hall
  set l := (List.range (existing.length + 1)).map
    (fun j => candidateId index (k + j)) with hl
  have hinj : Function.Injective (fun j => candidateId index (k + j)) := by
    intro x y hxy
    have := candidateId_inj index hxy
    omega
  have hnd : l.Nodup := (List.nodup_range _).map hinj
  have hsub : ∀ x ∈ l, x ∈ existing := by
    intro x hx
    rw [hl, List.mem_map] at hx
    obtain ⟨j, hj, hje⟩ := hx
    rw [List.mem_range] at hj
    exact hje ▸ hall j hj
  have hcard1 : l.toFinset.card = l.length := List.toFinset_card_of_nodup hnd
  have hlen : l.length = existing.length + 1 := by simp [hl]
  have hsubf : l.toFinset ⊆ existing.toFinset := by
    intro x hx
    rw [List.mem_toFinset] at hx ⊢
    exact hsub x hx
  have hcard2 := Finset.card_le_card hsubf
  have hcard3 := existing.toFinset_card_le
  omega

theorem assignId_not_mem (init : Str) (index : Nat) (existing : List Str) :
    assignId init index existing ∉ existing := by
  unfold assignId
  split_ifs with h
  · exact idLoop_not_mem existing index (existing.length + 1) 1
      (exists_free_candidate existing index 1)
  · exact h

/-- C5: over every archive id set, image-config id list and random-id
choices, the relationship ids assigned by one `processImages` pass are
pairwise distinct and disjoint from the existing ids. -/
theorem image_ids_unique (cfgs : List (Option Str)) (rands : Nat → Str)
    (existing : List Str) :
    (processImagesIds cfgs rands existing 0 []).Nodup ∧
      ∀ id ∈ processImagesIds cfgs rands existing 0 [], id ∉ existing := by
  suffices H : ∀ (cfgs' : List (Option Str)) (i : Nat) (acc : List Str),
      acc.Nodup → (∀ a ∈ acc, a ∉ existing) →
      (processImagesIds cfgs' rands existing i acc).Nodup ∧
        ∀ id ∈ processImagesIds cfgs' rands existing i acc, id ∉ existing by
    exact H cfgs 0 [] List.nodup_nil (by simp)
  intro cfgs'
  induction cfgs' with
  | nil =>
    intro i acc h1 h2
    exact ⟨h1, h2⟩
  | cons cfg rest ih =>
    intro i acc h1 h2
    simp only [processImagesIds]
    have hni : prepareImageId cfg (rands i) i (existing ++ acc) ∉ existing ++ acc := by
      unfold prepareImageId
      exact assignId_not_mem _ _ _
    have hnotex : prepareImageId cfg (rands i) i (existing ++ acc) ∉ existing :=
      fun hm => hni (List.mem_append.mpr (Or.inl hm))
    have hnotacc : prepareImageId cfg (rands i) i (existing ++ acc) ∉ acc :=
      fun hm => hni (List.mem_append.mpr (Or.inr hm))
    apply ih (i + 1)
    · refine List.Nodup.append h1 (List.nodup_singleton _) ?_
      intro a ha hb
      rw [List.mem_singleton] at hb
      exact hnotacc (hb ▸ ha)
    · intro a ha
      rcases List.mem_append.mp ha with h | h
      · exact h2 a h
      · rw [List.mem_singleton] at h
        exact h ▸ hnotex

/-! ## Claim C7 — repair idempotence on single-escaped input -/

/-- C7: for every already-single-escaped string `s` (one containing none of
the five double-escaped sequences `&amp;amp;`, `&amp;lt;`, `&amp;gt;`,
`&amp;quot;`, `&amp;apos;`), applying the double-escaping repair twice equals
applying it once: `fixDoubleEscaping (fixDoubleEscaping s) =
fixDoubleEscaping s`. -/
theorem repair_idempotent (s : Str)
    (h1 : ¬ "&amp;amp;".toList <:+: s) (h2 : ¬ "&amp;lt;".toList <:+: s)
    (h3 : ¬ "&amp;gt;".toList <:+: s) (h4 : ¬ "&amp;quot;".toList <:+: s)
    (h5 : ¬ "&amp;apos;".toList <:+: s) :
    fixDoubleEscaping (fixDoubleEscaping s) = fixDoubleEscaping s := by
  have hfix : fixDoubleEscaping s = s := by
    unfold fixDoubleEscaping
    rw [replaceAll_noDollar "&amp;amp;".toList "&amp;".toList _ (by decide),
      replaceAllV_id_of_no_occ _ _ s h1,
      replaceAll_noDollar "&amp;lt;".toList "&lt;".toList _ (by decide),
      replaceAllV_id_of_no_occ _ _ s h2,
      replaceAll_noDollar "&amp;gt;".toList "&gt;".toList _ (by decide),
      replaceAllV_id_of_no_occ _ _ s h3,
      replaceAll_noDollar "&amp;quot;".toList "&quot;".toList _ (by decide),
      replaceAllV_id_of_no_occ _ _ s h4,
      replaceAll_noDollar "&amp;apos;".toList "&apos;".toList _ (by decide),
      replaceAllV_id_of_no_occ _ _ s h5]
  rw [hfix, hfix]

/-- Witness for C7 at the concrete single-escaped string `"&amp; x"`. -/
theorem repair_idempotent_witness :
    fixDoubleEscaping (fixDoubleEscaping "&amp; x".toList)
      = fixDoubleEscaping "&amp; x".toList :=
  repair_idempotent _
    (fun h => absurd ((isSubstr_iff _ _).mpr h) (by decide))
    (fun h => absurd ((isSubstr_iff _ _).mpr h) (by decide))
    (fun h => absurd ((isSubstr_iff _ _).mpr h) (by decide))
    (fun h => absurd ((isSubstr_iff _ _).mpr h) (by decide))
    (fun h => absurd ((isSubstr_iff _ _).mpr h) (by decide))

/-! ## Claim C6 — codec behaviour on null / non-string input -/

/-- C6 counterexample: the claim says all three codec operations return the
empty string on null input, but `fixDoubleEscaping` has no type guard of its
own — its `replaceAllV` calls return a non-string input unchanged, so
`fixDoubleEscaping(null)` is `null`, not `''`. -/
theorem codec_nonstring_cex :
    fixDoubleEscapingJs JsVal.vnull = JsVal.vnull ∧ JsVal.vnull ≠ JsVal.vstr [] :=
  ⟨rfl, by decide⟩

/-- C6 amended: on every null / non-string input, `escapeForXml` and
`unescapeXml` return the empty string; `fixDoubleEscaping` returns the input
unchanged.  None of the three throws (they are total functions). -/
theorem codec_nonstring_amended (v : JsVal) (h : v.isStr = false) :
    escapeForXmlJs v = .vstr [] ∧ unescapeXmlJs v = .vstr []
      ∧ fixDoubleEscapingJs v = v := by
  cases v with
  | vstr s => simp [JsVal.isStr] at h
  | vnull => exact ⟨rfl, rfl, rfl⟩
  | vother => exact ⟨rfl, rfl, rfl⟩

/-- Witness for the amended C6 at the null value. -/
theorem codec_nonstring_amended_witness :
    escapeForXmlJs JsVal.vnull = .vstr [] ∧ unescapeXmlJs JsVal.vnull = .vstr []
      ∧ fixDoubleEscapingJs JsVal.vnull = JsVal.vnull :=
  codec_nonstring_amended JsVal.vnull rfl

/-! ## Claim C8 — image source precedence -/

/-- C8: `getImageBuffer` resolves the content from the first set source in
the fixed precedence order buffer > path > url (a set string source being a
present, non-empty one — the JavaScript truthiness test), and it returns the
`No image source provided` error exactly when none of the three sources is
set. -/
theorem getImageBuffer_precedence (c : ImageConfig) :
    (∀ b, c.buffer = some b → getImageBuffer c = .ok (.fromBuffer b)) ∧
    (∀ p, c.buffer = none → c.path = some p → p ≠ [] →
      getImageBuffer c = .ok (.fromPath p)) ∧
    (∀ u, c.buffer = none → strTruthy c.path = false → c.url = some u → u ≠ [] →
      getImageBuffer c = .ok (.fromUrl u)) ∧
    (getImageBuffer c =
        .error ("No image source provided for placeholder: ".toList ++ c.placeholder) ↔
      (c.buffer = none ∧ strTruthy c.path = false ∧ strTruthy c.url = false)) := by
  obtain ⟨ph, pa, bu, ur, w, hh, i⟩ := c
  refine ⟨?_, ?_, ?_, ?_⟩
  · intro b hb
    cases hb
    rfl
  · intro p hb hp hpne
    cases hb; cases hp
    simp [getImageBuffer, hpne]
  · intro u hb hpath hu hune
    cases hb; cases hu
    cases pa with
    | none => simp [getImageBuffer, getImageBufferUrl, hune]
    | some p =>
      have hpe : p = [] := by
        simpa [strTruthy, List.isEmpty_iff] using hpath
      subst hpe
      simp [getImageBuffer, getImageBufferUrl, hune]
  · cases bu with
    | some b => simp [getImageBuffer]
    | none =>
      cases pa with
      | none =>
        cases ur with
        | none => simp [getImageBuffer, getImageBufferUrl, strTruthy]
        | some u =>
          by_cases hu : u = []
          · subst hu
            simp [getImageBuffer, getImageBufferUrl, strTruthy]
          · simp [getImageBuffer, getImageBufferUrl, strTruthy, hu,
              List.isEmpty_iff]
      | some p =>
        by_cases hp : p = []
        · subst hp
          cases ur with
          | none => simp [getImageBuffer, getImageBufferUrl, strTruthy]
          | some u =>
            by_cases hu : u = []
            · subst hu
              simp [getImageBuffer, getImageBufferUrl, strTruthy]
            · simp [getImageBuffer, getImageBufferUrl, strTruthy, hu,
                List.isEmpty_iff]
        · simp [getImageBuffer, strTruthy, hp, List.isEmpty_iff]

/-- Witness for C8: a buffer-backed config resolves to the buffer, and a
config with no source at all yields the fatal error. -/
theorem getImageBuffer_precedence_witness :
    getImageBuffer ⟨"logo".toList, some "a.png".toList, some [1, 2], none, none, none, none⟩
      = .ok (.fromBuffer [1, 2]) ∧
    getImageBuffer ⟨"logo".toList, none, none, none, none, none, none⟩
      = .error ("No image source provided for placeholder: ".toList ++ "logo".toList) :=
  ⟨(getImageBuffer_precedence _).1 _ rfl,
    ((getImageBuffer_precedence _).2.2.2).mpr ⟨rfl, rfl, rfl⟩⟩

/-! ## Claim C9 — content-type registry deduplication -/

/-- A registry already declaring the extension is returned unchanged. -/
theorem addContentType_declared (xml ext ct : Str)
    (h : isSubstr ("Extension=\"".toList ++ ext ++ "\"".toList) xml = true) :
    addContentType xml ext ct = xml := by
  simp only [addContentType, h, if_true]

/-- A registry not declaring the extension gets the new declaration spliced
in before `</Types>` — verbatim when the extension and content type are
`$`-free. -/
theorem addContentType_not_declared (xml ext ct : Str)
    (h : isSubstr ("Extension=\"".toList ++ ext ++ "\"".toList) xml = false)
    (hext : '$' ∉ ext) (hct : '$' ∉ ct) :
    addContentType xml ext ct
      = replaceAllV "</Types>".toList
          (("<Default Extension=\"".toList ++ ext ++ "\" ContentType=\"".toList
              ++ ct ++ "\" />".toList) ++ '\n' :: "</Types>".toList) xml := by
  have hrepl : '$' ∉ (("<Default Extension=\"".toList ++ ext
      ++ "\" ContentType=\"".toList ++ ct ++ "\" />".toList)
        ++ '\n' :: "</Types>".toList : Str) := by
    intro hm
    rcases List.mem_append.mp hm with h1 | h2
    · rcases List.mem_append.mp h1 with h3 | h4
      · rcases List.mem_append.mp h3 with h5 | h6
        · rcases List.mem_append.mp h5 with h7 | h8
          · rcases List.mem_append.mp h7 with h9 | h10
            · exact absurd h9 (by decide)
            · exact hext h10
          · exact absurd h8 (by decide)
        · exact hct h6
      · exact absurd h4 (by decide)
    · rcases List.mem_cons.mp h2 with h5 | h6
      · exact absurd h5 (by decide)
      · exact absurd h6 (by decide)
  have h1 : addContentType xml ext ct
      = replaceAll "</Types>".toList
          (("<Default Extension=\"".toList ++ ext ++ "\" ContentType=\"".toList
              ++ ct ++ "\" />".toList) ++ '\n' :: "</Types>".toList) xml := by
    simp only [addContentType, h]
    simp
  rw [h1, replaceAll_noDollar _ _ _ hrepl]

/-- C9 counterexample: at the extension `$&` the spliced declaration's `$&`
undergoes `GetSubstitution` and expands to the matched `</Types>`, so the
extension never registers and a second add splices again (at both `</Types>`
occurrences): `add (add xml) ≠ add xml`. -/
theorem addContentType_dedup_cex :
    addContentType "<Types></Types>".toList "$&".toList "ct".toList
      = "<Types><Default Extension=\"</Types>\" ContentType=\"ct\" />\n</Types>".toList ∧
    addContentType
        (addContentType "<Types></Types>".toList "$&".toList "ct".toList)
        "$&".toList "ct".toList
      ≠ addContentType "<Types></Types>".toList "$&".toList "ct".toList := by
  constructor
  · decide
  · decide

/-- C9 amended: for `$`-free extensions and content types (every real
extension/MIME type; a `$` would undergo `GetSubstitution` in the replacement
position), `addContentType` is idempotent per extension: a registry text
already declaring the extension is returned unchanged, adding the same
extension twice equals adding it once, and registering two `png` images in a
registry yields exactly one `png` declaration. -/
theorem addContentType_dedup (xml ext ct ct' : Str)
    (hext : '$' ∉ ext) (hct : '$' ∉ ct) (hct' : '$' ∉ ct') :
    (isSubstr ("Extension=\"".toList ++ ext ++ "\"".toList) xml = true →
      addContentType xml ext ct = xml) ∧
    addContentType (addContentType xml ext ct) ext ct' = addContentType xml ext ct ∧
    countOcc "Extension=\"png\"".toList
      (addContentType
        (addContentType "<Types></Types>".toList "png".toList "image/png".toList)
        "png".toList "image/png".toList) = 1 := by
  refine ⟨fun h => addContentType_declared xml ext ct h, ?_, by decide⟩
  · by_cases h : isSubstr ("Extension=\"".toList ++ ext ++ "\"".toList) xml = true
    · rw [addContentType_declared xml ext ct h, addContentType_declared xml ext ct' h]
    · rw [Bool.not_eq_true] at h
      have e1 := addContentType_not_declared xml ext ct h hext hct
      by_cases hty : "</Types>".toList <:+: xml
      · have hrep : (("<Default Extension=\"".toList ++ ext ++ "\" ContentType=\"".toList
            ++ ct ++ "\" />".toList) ++ '\n' :: "</Types>".toList)
              <:+: addContentType xml ext ct := by
          rw [e1]
          exact replaceAllV_contains_of_occ _ _ (by decide) xml hty
        have hex : ("Extension=\"".toList ++ ext ++ "\"".toList)
            <:+: addContentType xml ext ct := by
          refine List.IsInfix.trans ?_ hrep
          refine ⟨"<Default ".toList,
            " ContentType=\"".toList ++ ct ++ "\" />".toList ++ '\n' :: "</Types>".toList, ?_⟩
          have ha : "<Default ".toList ++ "Extension=\"".toList
              = "<Default Extension=\"".toList := by decide
          have hb : ("\"".toList : Str) ++ " ContentType=\"".toList
              = "\" ContentType=\"".toList := by decide
          simp only [List.append_assoc]
          rw [← ha, ← hb]
          simp
        have hsub : isSubstr ("Extension=\"".toList ++ ext ++ "\"".toList)
            (addContentType xml ext ct) = true := (isSubstr_iff _ _).mpr hex
        exact addContentType_declared _ ext ct' hsub
      · have hid : addContentType xml ext ct = xml := by
          rw [e1, replaceAllV_id_of_no_occ _ _ xml hty]
        rw [hid, addContentType_not_declared xml ext ct' h hext hct',
          replaceAllV_id_of_no_occ _ _ xml hty]

/-- Witness for C9: a registry that already declares `png` is returned
unchanged. -/
theorem addContentType_dedup_witness :
    addContentType
        "<Types><Default Extension=\"png\" ContentType=\"image/png\"/></Types>".toList
        "png".toList "image/png".toList
      = "<Types><Default Extension=\"png\" ContentType=\"image/png\"/></Types>".toList :=
  (addContentType_dedup _ _ _ "image/png".toList (by decide) (by decide)
    (by decide)).1 (by decide)

/-! ## Claim C3 — table style overrides (code bug)

The unit test `tests/unit/custom-table-style.test.ts` and the documented
`TableStyle` defaults expect the merged style's `headerHeight`, `rowHeight`,
`tableAlign`, `cellPadding` and `borderSize` to appear in the fragment, but
`generateTable` hardcodes `400`, `350`, `center` and `4` and emits no
cell-padding markup at all.  The theorem evaluates the generator at the
test's own override input. -/

/-- C3 (code-bug evidence): with every documented override set
(`headerHeight 600`, `rowHeight 500`, `tableAlign left`, `cellPadding 200`,
`borderSize 8`), the emitted fragment still contains the default header
height `400`, row height `350`, centre alignment and border size `4`, and
contains none of the overridden values. -/
theorem generateTable_style_override_bug :
    isSubstr "<w:trHeight w:val=\"400\" />".toList
      (generateTable [⟨"Header 1".toList, some 1000⟩]
      [["Row 1 Col 1".toList]]
      (mergeStyle
        { headerHeight := some 600, rowHeight := some 500,
          tableAlign := some "left".toList, cellPadding := some 200,
          borderSize := some 8 })) = true ∧
    isSubstr "<w:trHeight w:val=\"350\" />".toList
      (generateTable [⟨"Header 1".toList, some 1000⟩]
      [["Row 1 Col 1".toList]]
      (mergeStyle
        { headerHeight := some 600, rowHeight := some 500,
          tableAlign := some "left".toList, cellPadding := some 200,
          borderSize := some 8 })) = true ∧
    isSubstr "w:val=\"600\"".toList
      (generateTable [⟨"Header 1".toList, some 1000⟩]
      [["Row 1 Col 1".toList]]
      (mergeStyle
        { headerHeight := some 600, rowHeight := some 500,
          tableAlign := some "left".toList, cellPadding := some 200,
          borderSize := some 8 })) = false ∧
    isSubstr "w:val=\"500\"".toList
      (generateTable [⟨"Header 1".toList, some 1000⟩]
      [["Row 1 Col 1".toList]]
      (mergeStyle
        { headerHeight := some 600, rowHeight := some 500,
          tableAlign := some "left".toList, cellPadding := some 200,
          borderSize := some 8 })) = false ∧
    isSubstr "<w:jc w:val=\"center\" />".toList
      (generateTable [⟨"Header 1".toList, some 1000⟩]
      [["Row 1 Col 1".toList]]
      (mergeStyle
        { headerHeight := some 600, rowHeight := some 500,
          tableAlign := some "left".toList, cellPadding := some 200,
          borderSize := some 8 })) = true ∧
    isSubstr "w:val=\"left\"".toList
      (generateTable [⟨"Header 1".toList, some 1000⟩]
      [["Row 1 Col 1".toList]]
      (mergeStyle
        { headerHeight := some 600, rowHeight := some 500,
          tableAlign := some "left".toList, cellPadding := some 200,
          borderSize := some 8 })) = false ∧
    isSubstr "w:sz=\"4\"".toList
      (generateTable [⟨"Header 1".toList, some 1000⟩]
      [["Row 1 Col 1".toList]]
      (mergeStyle
        { headerHeight := some 600, rowHeight := some 500,
          tableAlign := some "left".toList, cellPadding := some 200,
          borderSize := some 8 })) = true ∧
    isSubstr "w:sz=\"8\"".toList
      (generateTable [⟨"Header 1".toList, some 1000⟩]
      [["Row 1 Col 1".toList]]
      (mergeStyle
        { headerHeight := some 600, rowHeight := some 500,
          tableAlign := some "left".toList, cellPadding := some 200,
          borderSize := some 8 })) = false ∧
    isSubstr "<w:tblCellMar>".toList
      (generateTable [⟨"Header 1".toList, some 1000⟩]
      [["Row 1 Col 1".toList]]
      (mergeStyle
        { headerHeight := some 600, rowHeight := some 500,
          tableAlign := some "left".toList, cellPadding := some 200,
          borderSize := some 8 })) = false := by
  decide

/-! ## Claim C10 — the split-run pass is case-insensitive

The third pass of `replacePlaceholder` compiles the placeholder into the
regular expression `<w:t[^>]*>\s*  t₁[^a-zA-Z]*t₂[^a-zA-Z]*…  \s*</w:t>`
with the `gi` flags.  We show that a text run whose content is the
placeholder name in any letter case is replaced by `<w:t>safeValue</w:t>`:
the matcher lemmas below analyse `tryMatch` on the pattern produced by
`splitRunPat`. -/

theorem tokenPat_single (c : Char) : tokenPat [c] = [.lit c] := rfl

theorem tokenPat_cons (c d : Char) (rest : Str) :
    tokenPat (c :: d :: rest) = .lit c :: .star nonAlpha :: tokenPat (d :: rest) := rfl

theorem splitRunPat_eq (p : Str) :
    splitRunPat p = RElem.lit '<' :: RElem.lit 'w' :: RElem.lit ':' :: RElem.lit 't'
      :: RElem.star nonGt :: RElem.lit '>' :: RElem.star wsChar
      :: (tokenPat p ++ (RElem.star wsChar :: closeTag)) := rfl

theorem tryMatch_lit_true (c : Char) (ps : List RElem) (x : Char) (xs : Str)
    (h : ciEq c x = true) :
    tryMatch (.lit c :: ps) (x :: xs) = (tryMatch ps xs).map (· + 1) := by
  simp [tryMatch, h]

theorem tryMatch_lit_false (c : Char) (ps : List RElem) (x : Char) (xs : Str)
    (h : ciEq c x = false) :
    tryMatch (.lit c :: ps) (x :: xs) = none := by
  simp [tryMatch, h]

theorem tryMatch_star_zero (p : Char → Bool) (ps : List RElem) (s : Str)
    (h : s.takeWhile p = []) :
    tryMatch (.star p :: ps) s = tryMatch ps s := by
  simp only [tryMatch, h, List.length_nil, starLoop]

theorem char_toNat_inj (a b : Char) (h : a.toNat = b.toNat) : a = b := by
  have h2 : a.val = b.val := by
    apply UInt32.toNat.inj
    exact h
  exact Char.ext h2

theorem ciEq_of_lower (a b : Char) (h : lowerN a = lowerN b) : ciEq a b = true := by
  simp [ciEq, h]

theorem ciEq_force (c x : Char)
    (hc : ¬ (65 ≤ c.toNat ∧ c.toNat ≤ 90)) (hc2 : ¬ (97 ≤ c.toNat ∧ c.toNat ≤ 122))
    (h : ciEq c x = true) : x = c := by
  have h2 : lowerN c = lowerN x := by simpa [ciEq] using h
  rw [lowerN, if_neg hc] at h2
  by_cases hx : 65 ≤ x.toNat ∧ x.toNat ≤ 90
  · rw [lowerN, if_pos hx] at h2
    exact absurd ⟨by omega, by omega⟩ hc2
  · rw [lowerN, if_neg hx] at h2
    exact char_toNat_inj x c h2.symm

theorem ciEq_lt_of_ne (x : Char) (hx : x ≠ '<') : ciEq '<' x = false := by
  cases h : ciEq '<' x with
  | false => rfl
  | true => exact absurd (ciEq_force '<' x (by decide) (by decide) h) hx

theorem alpha_not_ws (c : Char) (h : isAsciiAlpha c = true) : wsChar c = false := by
  cases hw : wsChar c with
  | false => rfl
  | true =>
    exfalso
    simp only [wsChar, Bool.or_eq_true, beq_iff_eq] at hw
    rcases hw with ((((h1 | h1) | h1) | h1) | h1) | h1 <;>
      (subst h1; exact absurd h (by decide))

theorem alpha_nonAlpha (c : Char) (h : isAsciiAlpha c = true) : nonAlpha c = false := by
  simp [nonAlpha, h]


theorem scanReplaceV_full (pat : List RElem) (repl s : Str)
    (h : tryMatch pat s = some s.length) (hs : s ≠ []) :
    scanReplaceV pat repl s = repl := by
  cases s with
  | nil => exact absurd rfl hs
  | cons c rest =>
    rw [scanReplaceV_cons_some pat repl c rest (c :: rest).length h (by simp),
      List.drop_length, scanReplaceV_nil, List.append_nil]

theorem starLoop_split (f : Str → Option Nat) (s : Str) :
    ∀ (j n : Nat), starLoop f s j = some n →
      ∃ d, d ≤ n ∧ f (s.drop d) = some (n - d) := by
  intro j
  induction j with
  | zero =>
    intro n h
    exact ⟨0, Nat.zero_le n, by simpa using h⟩
  | succ k ih =>
    intro n h
    simp only [starLoop] at h
    rcases hm : f (s.drop (k + 1)) with _ | m
    · rw [hm] at h
      exact ih n h
    · rw [hm] at h
      have hn : n = k + 1 + m := by
        have := Option.some.inj h
        omega
      exact ⟨k + 1, by omega, by rw [hm]; exact congrArg some (by omega)⟩

theorem tryMatch_split (qs : List RElem) :
    ∀ (ps : List RElem) (s : Str) (n : Nat), tryMatch (ps ++ qs) s = some n →
      ∃ k, k ≤ n ∧ tryMatch qs (s.drop k) = some (n - k) := by
  intro ps
  induction ps with
  | nil =>
    intro s n h
    exact ⟨0, Nat.zero_le n, by simpa using h⟩
  | cons e ps ih =>
    intro s n h
    cases e with
    | lit c =>
      cases s with
      | nil => simp [tryMatch] at h
      | cons x xs =>
        rw [List.cons_append] at h
        cases hc : ciEq c x with
        | false => rw [tryMatch_lit_false c (ps ++ qs) x xs hc] at h; exact absurd h (by simp)
        | true =>
          rw [tryMatch_lit_true c (ps ++ qs) x xs hc] at h
          rcases Option.map_eq_some'.mp h with ⟨m, hm, hmn⟩
          rcases ih xs m hm with ⟨k, hk, hq⟩
          refine ⟨k + 1, by omega, ?_⟩
          rw [List.drop_succ_cons]
          rw [hq]
          exact congrArg some (by omega)
    | star p =>
      rw [List.cons_append] at h
      simp only [tryMatch] at h
      rcases starLoop_split (tryMatch (ps ++ qs)) s _ n h with ⟨d, hd, hf⟩
      rcases ih (s.drop d) (n - d) hf with ⟨k, hk, hq⟩
      refine ⟨d + k, by omega, ?_⟩
      have hdd : (s.drop d).drop k = s.drop (d + k) := by rw [List.drop_drop]
      rw [hdd] at hq
      rw [hq]
      exact congrArg some (by omega)


theorem tryMatch_lit_some (c : Char) (ps : List RElem) (w : Str) (j : Nat)
    (h : tryMatch (.lit c :: ps) w = some j) :
    ∃ x xs m, w = x :: xs ∧ ciEq c x = true ∧ tryMatch ps xs = some m ∧ j = m + 1 := by
  cases w with
  | nil =>
    rw [show tryMatch (.lit c :: ps) [] = none from rfl] at h
    exact absurd h (by simp)
  | cons x xs =>
    cases hc : ciEq c x with
    | false =>
      rw [tryMatch_lit_false c ps x xs hc] at h
      exact absurd h (by simp)
    | true =>
      rw [tryMatch_lit_true c ps x xs hc] at h
      rcases Option.map_eq_some'.mp h with ⟨m, hm, hmj⟩
      exact ⟨x, xs, m, rfl, hc, hm, hmj.symm⟩

theorem tryMatch_closeTag (w : Str) (j : Nat) (h : tryMatch closeTag w = some j) :
    j = 6 ∧ ∃ x2 x4 r, w = '<' :: '/' :: x2 :: ':' :: x4 :: '>' :: r := by
  obtain ⟨x0, w0, m0, rfl, hc0, h0, rfl⟩ :=
    tryMatch_lit_some '<' [.lit '/', .lit 'w', .lit ':', .lit 't', .lit '>'] w j h
  obtain rfl := ciEq_force '<' x0 (by decide) (by decide) hc0
  obtain ⟨x1, w1, m1, rfl, hc1, h1, rfl⟩ :=
    tryMatch_lit_some '/' [.lit 'w', .lit ':', .lit 't', .lit '>'] w0 m0 h0
  obtain rfl := ciEq_force '/' x1 (by decide) (by decide) hc1
  obtain ⟨x2, w2, m2, rfl, _, h2, rfl⟩ :=
    tryMatch_lit_some 'w' [.lit ':', .lit 't', .lit '>'] w1 m1 h1
  obtain ⟨x3, w3, m3, rfl, hc3, h3, rfl⟩ :=
    tryMatch_lit_some ':' [.lit 't', .lit '>'] w2 m2 h2
  obtain rfl := ciEq_force ':' x3 (by decide) (by decide) hc3
  obtain ⟨x4, w4, m4, rfl, _, h4, rfl⟩ :=
    tryMatch_lit_some 't' [.lit '>'] w3 m3 h3
  obtain ⟨x5, w5, m5, rfl, hc5, h5, rfl⟩ :=
    tryMatch_lit_some '>' [] w4 m4 h4
  obtain rfl := ciEq_force '>' x5 (by decide) (by decide) hc5
  simp only [tryMatch, Option.some.injEq] at h5
  exact ⟨by omega, x2, x4, w5, rfl⟩


theorem close_pos (safe : Str) (hsafe : '<' ∉ safe) (k : Nat)
    (x2 x4 : Char) (r : Str)
    (hk : ("<w:t>".toList ++ safe ++ "</w:t>".toList).drop k
      = '<' :: '/' :: x2 :: ':' :: x4 :: '>' :: r) :
    k = 5 + safe.length := by
  have hq : (("<w:t>".toList ++ safe ++ "</w:t>".toList))[k]? = some '<' := by
    rw [← List.head?_drop, hk]
    rfl
  by_cases hk0 : k = 0
  · exfalso
    subst hk0
    rw [List.drop_zero] at hk
    have hk2 : ('<' :: 'w' :: ':' :: 't' :: '>' :: (safe ++ "</w:t>".toList) : Str)
        = '<' :: '/' :: x2 :: ':' :: x4 :: '>' :: r := hk
    injection hk2 with _ hk3
    injection hk3 with hww _
    exact absurd hww (by decide)
  by_cases hk5 : k < 5
  · exfalso
    have hlt : k < ("<w:t>".toList ++ safe).length := by
      simp [List.length_append]
      omega
    rw [List.getElem?_append_left hlt,
      List.getElem?_append_left (show k < ("<w:t>".toList : Str).length by simpa using hk5)] at hq
    have hk1 : 1 ≤ k := by omega
    interval_cases k
    all_goals exact absurd hq (by decide)
  by_cases hks : k < 5 + safe.length
  · exfalso
    have hlt : k < ("<w:t>".toList ++ safe).length := by
      simp [List.length_append]
      omega
    rw [List.getElem?_append_left hlt,
      List.getElem?_append_right (show ("<w:t>".toList : Str).length ≤ k by simpa using by omega)] at hq
    exact hsafe (List.getElem?_mem hq)
  · have hge : ("<w:t>".toList ++ safe).length ≤ k := by
      simp [List.length_append]
      omega
    rw [List.getElem?_append_right hge] at hq
    have hlen : ("<w:t>".toList ++ safe).length = 5 + safe.length := by
      simp [List.length_append]
      omega
    rw [hlen] at hq
    have hjlt : k - (5 + safe.length) < 6 := by
      have := (List.getElem?_eq_some.mp hq).1
      simpa using this
    have hj0 : k - (5 + safe.length) = 0 := by
      rcases Nat.lt_or_ge (k - (5 + safe.length)) 1 with h1 | h1
      · omega
      · exfalso
        set j := k - (5 + safe.length) with hjdef
        interval_cases j
        · exact absurd hq (by decide)
        · exact absurd hq (by decide)
        · exact absurd hq (by decide)
        · exact absurd hq (by decide)
        · exact absurd hq (by decide)
    omega


theorem caseVariant_alpha_left (u t : Str) (h : List.Forall₂ caseVariant u t) :
    ∀ c ∈ u, isAsciiAlpha c = true := by
  induction h with
  | nil => intro c hc; cases hc
  | cons hab htail ih =>
    intro c hc
    rcases List.mem_cons.mp hc with rfl | hm
    · exact hab.1
    · exact ih c hm

theorem tryMatch_token (u t : Str) (hft : List.Forall₂ caseVariant u t) :
    tryMatch (tokenPat t ++ (RElem.star wsChar :: closeTag)) (u ++ "</w:t>".toList)
      = some (u.length + 6) := by
  have hbase : tryMatch (RElem.star wsChar :: closeTag) ("</w:t>".toList) = some 6 := by
    decide
  induction hft with
  | nil =>
    simpa using hbase
  | cons hab htail ih =>
    rename_i b a u2 t2
    cases htail with
    | nil =>
      rw [tokenPat_single, List.cons_append, List.nil_append, List.cons_append,
        tryMatch_lit_true a _ b _ (ciEq_of_lower a b hab.2.2.symm),
        List.nil_append, hbase]
      rfl
    | cons hab2 htail2 =>
      rename_i b2 a2 u3 t3
      rw [tokenPat_cons, List.cons_append, List.cons_append, List.cons_append,
        tryMatch_lit_true a _ b _ (ciEq_of_lower a b hab.2.2.symm),
        tryMatch_star_zero nonAlpha _ _
          (by rw [List.cons_append, List.takeWhile_cons, alpha_nonAlpha b2 hab2.1]; rfl)]
      rw [ih]
      show some (((b2 :: u3).length + 6) + 1) = some ((b :: b2 :: u3).length + 6)
      exact congrArg some (by simp [List.length_cons])


theorem tryMatch_full (t u : Str) (hne : t ≠ []) (hft : List.Forall₂ caseVariant u t) :
    tryMatch (splitRunPat t) ("<w:t>".toList ++ u ++ "</w:t>".toList)
      = some (u.length + 11) := by
  cases hft with
  | nil => exact absurd rfl hne
  | cons hab htail =>
    rename_i b a u2 t2
    rw [splitRunPat_eq]
    have hin : ("<w:t>".toList : Str) ++ (b :: u2) ++ "</w:t>".toList
        = '<' :: 'w' :: ':' :: 't' :: '>' :: ((b :: u2) ++ "</w:t>".toList) := rfl
    rw [hin]
    rw [tryMatch_lit_true '<' _ '<' _ (by decide),
      tryMatch_lit_true 'w' _ 'w' _ (by decide),
      tryMatch_lit_true ':' _ ':' _ (by decide),
      tryMatch_lit_true 't' _ 't' _ (by decide)]
    rw [tryMatch_star_zero nonGt _ _ (by rw [List.takeWhile_cons]; rfl)]
    rw [tryMatch_lit_true '>' _ '>' _ (by decide)]
    rw [tryMatch_star_zero wsChar _ _
      (by rw [List.cons_append, List.takeWhile_cons, alpha_not_ws b hab.1]; rfl)]
    rw [tryMatch_token (b :: u2) (a :: t2) (List.Forall₂.cons hab htail)]
    simp only [Option.map_some']

theorem tryMatch_not_lt (t : Str) (x : Char) (xs : Str) (hx : x ≠ '<') :
    tryMatch (splitRunPat t) (x :: xs) = none := by
  rw [splitRunPat_eq]
  exact tryMatch_lit_false '<' _ x xs (ciEq_lt_of_ne x hx)

theorem tryMatch_open_slash (t : Str) (w : Str) :
    tryMatch (splitRunPat t) ('<' :: '/' :: w) = none := by
  rw [splitRunPat_eq,
    tryMatch_lit_true '<' _ '<' _ (by decide),
    tryMatch_lit_false 'w' _ '/' w (by decide)]
  rfl

theorem scanReplaceV_seg (t : Str) (repl : Str) :
    ∀ (a b : Str), '<' ∉ a →
      scanReplaceV (splitRunPat t) repl (a ++ b) = a ++ scanReplaceV (splitRunPat t) repl b := by
  intro a
  induction a with
  | nil => intro b _; rfl
  | cons c a2 ih =>
    intro b h
    have hc : c ≠ '<' := fun hc => h (hc ▸ List.mem_cons_self c a2)
    rw [List.cons_append,
      scanReplaceV_cons_none _ repl c (a2 ++ b) (tryMatch_not_lt t c (a2 ++ b) hc),
      ih b (fun hm => h (List.mem_cons_of_mem c hm)), List.cons_append]

theorem scanReplaceV_close (t repl : Str) :
    scanReplaceV (splitRunPat t) repl ("</w:t>".toList) = "</w:t>".toList := by
  have h1 : ("</w:t>".toList : Str) = '<' :: ('/' :: "w:t>".toList) := rfl
  rw [h1, scanReplaceV_cons_none _ repl _ _ (tryMatch_open_slash t _)]
  have h2 : ('/' :: "w:t>".toList : Str) = ('/' :: "w:t>".toList) ++ [] := by simp
  rw [h2, scanReplaceV_seg t repl ('/' :: "w:t>".toList) [] (by decide), scanReplaceV_nil]


theorem splitRunPat_assoc (t : Str) :
    splitRunPat t = ([RElem.lit '<', RElem.lit 'w', RElem.lit ':', RElem.lit 't',
      RElem.star nonGt, RElem.lit '>', RElem.star wsChar] ++ tokenPat t
        ++ [RElem.star wsChar]) ++ closeTag := by
  simp [splitRunPat, closeTag, List.append_assoc]

theorem scanReplaceV_run_self (t safe : Str) (hsafe : '<' ∉ safe) :
    scanReplaceV (splitRunPat t) ("<w:t>".toList ++ safe ++ "</w:t>".toList)
        ("<w:t>".toList ++ safe ++ "</w:t>".toList)
      = "<w:t>".toList ++ safe ++ "</w:t>".toList := by
  rcases htr : tryMatch (splitRunPat t)
      ("<w:t>".toList ++ safe ++ "</w:t>".toList) with _ | n
  · have hno : '<' ∉ ("w:t>".toList ++ safe : Str) := by
      intro hm
      rcases List.mem_append.mp hm with h1 | h2
      · exact absurd h1 (by decide)
      · exact hsafe h2
    rw [show ("<w:t>".toList ++ safe ++ "</w:t>".toList : Str)
        = '<' :: (("w:t>".toList ++ safe) ++ "</w:t>".toList) from rfl] at htr ⊢
    rw [scanReplaceV_cons_none _ _ '<' (("w:t>".toList ++ safe) ++ "</w:t>".toList) htr,
      scanReplaceV_seg t _ ("w:t>".toList ++ safe) ("</w:t>".toList) hno,
      scanReplaceV_close]
  · have htr2 := htr
    rw [splitRunPat_assoc] at htr2
    obtain ⟨k, hk, hcl⟩ := tryMatch_split closeTag _ _ n htr2
    obtain ⟨h6, x2, x4, r, hshape⟩ := tryMatch_closeTag _ _ hcl
    have hkpos := close_pos safe hsafe k x2 x4 r hshape
    have hlen : ("<w:t>".toList ++ safe ++ "</w:t>".toList : Str).length
        = safe.length + 11 := by
      simp [List.length_append]
    have hn : n = ("<w:t>".toList ++ safe ++ "</w:t>".toList : Str).length := by omega
    rw [hn] at htr
    exact scanReplaceV_full _ _ _ htr
      (List.cons_ne_nil '<' (("w:t>".toList ++ safe) ++ "</w:t>".toList))

/-- C10 counterexample: at the value `$&` the third pass's replacement
`<w:t>${safeValue}</w:t>` contains `$&`, which `GetSubstitution` expands to
the matched run, so the run `<w:t>NaMe</w:t>` (token `name`) becomes
`<w:t><w:t>NaMe</w:t>amp;</w:t>`, not `<w:t>` ++ escaped value ++ `</w:t>`. -/
theorem splitRun_dollar_cex :
    replacePlaceholder "<w:t>NaMe</w:t>".toList "name".toList "$&".toList
      = "<w:t><w:t>NaMe</w:t>amp;</w:t>".toList ∧
    "<w:t><w:t>NaMe</w:t>amp;</w:t>".toList
      ≠ "<w:t>".toList ++ escapeForXml "$&".toList ++ "</w:t>".toList := by
  constructor
  · decide
  · decide

/-- C10 amended: for `$`-free values, the split-run pass of
`replacePlaceholder` matches the token name case-insensitively (any
non-alphabetic filler is also allowed by the pattern); consequently a text
run `<w:t>u</w:t>` whose content `u` is the placeholder name in any letter
case is replaced by the escaped value: the result is exactly
`<w:t>escapeForXml v</w:t>`.  (A `$` in the value would undergo
`GetSubstitution` in the replacement position — see the counterexample.) -/
theorem splitRun_case_insensitive (t u v : Str) (hne : t ≠ [])
    (hft : List.Forall₂ caseVariant u t) (hd : '$' ∉ v) :
    replacePlaceholder ("<w:t>".toList ++ u ++ "</w:t>".toList) t v
      = "<w:t>".toList ++ escapeForXml v ++ "</w:t>".toList := by
  have hualpha := caseVariant_alpha_left u t hft
  have hlen : u.length = t.length := hft.length_eq
  have hbm : '\x7b' ∉ ("<w:t>".toList ++ u ++ "</w:t>".toList : Str) := by
    intro hm
    rcases List.mem_append.mp hm with h1 | h2
    · rcases List.mem_append.mp h1 with h3 | h4
      · exact absurd h3 (by decide)
      · exact absurd (hualpha _ h4) (by decide)
    · exact absurd h2 (by decide)
  have hsd : '$' ∉ escapeForXml v := escapeForXml_no_dollar v hd
  have hRd : '$' ∉ ("<w:t>".toList ++ escapeForXml v ++ "</w:t>".toList : Str) := by
    intro hm
    rcases List.mem_append.mp hm with h1 | h2
    · rcases List.mem_append.mp h1 with h3 | h4
      · exact absurd h3 (by decide)
      · exact hsd h4
    · exact absurd h2 (by decide)
  simp only [replacePlaceholder]
  rw [replaceAll_noDollar _ (escapeForXml v) _ hsd,
    replaceAll_noDollar _ _ _ hRd,
    scanReplace_noDollar _ _ _ hRd]
  have hr1 : replaceAllV ("\x7b\x7b".toList ++ t ++ "\x7d\x7d".toList) (escapeForXml v)
      ("<w:t>".toList ++ u ++ "</w:t>".toList)
      = "<w:t>".toList ++ u ++ "</w:t>".toList := by
    have hpat : ("\x7b\x7b".toList : Str) ++ t ++ "\x7d\x7d".toList
        = '\x7b' :: ('\x7b' :: (t ++ "\x7d\x7d".toList)) := by
      simp
    rw [hpat]
    exact replaceAllV_id_of_head_notMem '\x7b' _ _ _ hbm
  rw [hr1]
  by_cases hut : u = t
  · subst hut
    have hr2 : replaceAllV ("<w:t>".toList ++ u ++ "</w:t>".toList)
        ("<w:t>".toList ++ escapeForXml v ++ "</w:t>".toList)
        ("<w:t>".toList ++ u ++ "</w:t>".toList)
        = "<w:t>".toList ++ escapeForXml v ++ "</w:t>".toList := by
      have hh := replaceAllV_at_head ("<w:t>".toList ++ u ++ "</w:t>".toList)
        ("<w:t>".toList ++ escapeForXml v ++ "</w:t>".toList) [] (by simp)
      rw [List.append_nil] at hh
      rw [hh, replaceAllV_nil, List.append_nil]
    rw [hr2]
    exact scanReplaceV_run_self u (escapeForXml v) (escapeForXml_no_lt v)
  · have hnocc : ¬ ("<w:t>".toList ++ t ++ "</w:t>".toList : Str)
        <:+: ("<w:t>".toList ++ u ++ "</w:t>".toList) := by
      intro hinf
      have hl : ("<w:t>".toList ++ t ++ "</w:t>".toList : Str).length
          = ("<w:t>".toList ++ u ++ "</w:t>".toList : Str).length := by
        simp [List.length_append, hlen]
      have heq := hinf.sublist.eq_of_length hl
      exact hut (List.append_cancel_left (List.append_cancel_right heq)).symm
    rw [replaceAllV_id_of_no_occ _ _ _ hnocc]
    have hfull := tryMatch_full t u hne hft
    have hlen2 : ("<w:t>".toList ++ u ++ "</w:t>".toList : Str).length
        = u.length + 11 := by
      simp [List.length_append]
    rw [← hlen2] at hfull
    exact scanReplaceV_full _ _ _ hfull
      (List.cons_ne_nil '<' (("w:t>".toList ++ u) ++ "</w:t>".toList))

/-- Witness for C10: the run `<w:t>NaMe</w:t>` with placeholder `name` and
value `B&b` — the run is replaced and the value is escaped. -/
theorem splitRun_case_insensitive_witness :
    ("name".toList : Str) ≠ [] ∧
      List.Forall₂ caseVariant "NaMe".toList "name".toList ∧
      '$' ∉ "B&b".toList ∧
      replacePlaceholder ("<w:t>".toList ++ "NaMe".toList ++ "</w:t>".toList)
          "name".toList "B&b".toList
        = "<w:t>".toList ++ escapeForXml "B&b".toList ++ "</w:t>".toList := by
  have hf : List.Forall₂ caseVariant "NaMe".toList "name".toList := by
    show List.Forall₂ caseVariant ['N', 'a', 'M', 'e'] ['n', 'a', 'm', 'e']
    exact .cons (by decide) (.cons (by decide) (.cons (by decide)
      (.cons (by decide) .nil)))
  exact ⟨by decide, hf, by decide,
    splitRun_case_insensitive "name".toList "NaMe".toList "B&b".toList (by decide) hf
      (by decide)⟩

end Docx
